import Mathlib

/-!
Verification of the GpuSortedMap core (`src/lib.rs` and
`src/pipelines/range_scan.rs`) against its natural-language specification.

The Rust crate keeps a sorted slab of key-value pairs on the GPU.  All
device shaders of the bulk-put pipeline (`RADIX_SORT_WGSL`, `SCAN_WGSL`,
`DEDUP_WGSL`, `COUNT_WGSL`, `META_WGSL`, `BULK_MERGE_WGSL`) together with
the host orchestration in `BulkPutOp::execute` are embedded below as pure
list functions:

* the 32 radix passes (`radix_flags` + exclusive scan + `radix_scatter`)
  perform, for each bit, a stable partition of the batch into entries whose
  key has that bit clear followed by entries whose key has that bit set;
  `radixPass`/`radixSort` capture exactly that;
* `dedup_flags` keeps an entry iff it is the last of its equal-key run and
  `dedup_compact` compacts the kept entries in order; `dedupLast` is that
  sequential semantics;
* `capacity_check` raises the device error flag iff
  `slab_meta.len + input_meta.len > slab_meta.capacity`, where
  `input_meta.len` has been overwritten with the deduplicated batch length;
* `BULK_MERGE_WGSL` is a merge-path partitioned monotone merge: each
  invocation writes one 256-entry chunk of the sequential two-list merge
  embedded as `mergeSI` (the slab entry is taken only while its key is
  strictly smaller, so on equal keys the input entry is emitted first).
  `BulkPutOp::execute` dispatches it with `dispatch_workgroups(1, 1, 1)` at
  `@workgroup_size(64)`, so only the 64 chunks `gid.x < 64` run: merged
  positions at and beyond `MERGE_WINDOW = 64 * 256 = 16384` are never
  written, and the persistent merge buffer (zero-initialized at creation,
  copied wholesale over the slab buffer after every merge) keeps its old
  contents there.  `MapState.mbuf` models that buffer and `mergedState`
  models the truncated write plus the copy-back;
* `BULK_GET_WGSL` does a lower-bound binary search over `slab[0, len)` and
  reports absent when the found value is the tombstone `0xFFFF_FFFF`;
  `lbFuel`/`lbSearch`/`lookupOne` are that loop;
* `BulkDeleteOp` maps every delete key to the entry `(key, 0xFFFF_FFFF)`
  and runs `BulkPutOp` on the resulting batch;
* `RangeScanPipeline::execute` (from `pipelines/range_scan.rs`) returns the
  raw slab segment between the two lower bounds, with no tombstone filter.

Keys and values are `u32` in Rust; they are modelled as `Nat` together
with the well-formedness bound `< 2^32` where the algorithms need it (the
radix sort only inspects bits 0..31).
-/

namespace GpuSortedMap

/-- `KvEntry { key: u32, value: u32 }` from `src/lib.rs`. -/
structure KvEntry where
  key : Nat
  value : Nat
deriving DecidableEq, Repr, Inhabited

/-- `TOMBSTONE_VALUE: u32 = u32::MAX` from `src/lib.rs`. -/
def TOMBSTONE : Nat := 4294967295

/-- One more than the largest `u32` value. -/
def U32LIM : Nat := 4294967296

/-- All keys and values of a batch fit in `u32`, as the Rust types enforce. -/
def BatchWf (b : List KvEntry) : Prop :=
  ∀ e ∈ b, e.key < U32LIM ∧ e.value < U32LIM

instance : DecidablePred BatchWf := fun b =>
  inferInstanceAs (Decidable (∀ e ∈ b, e.key < U32LIM ∧ e.value < U32LIM))

/-- Bit `b` of the key, as computed by `radix_flags`:
`(key >> params.bit) & 1`. -/
def testBitKey (b : Nat) (e : KvEntry) : Bool :=
  (e.key >>> b) &&& 1 == 1

/-- One radix pass: `radix_flags` marks the entries whose bit is clear, the
scan plus `radix_scatter` then move the clear-bit entries (in order) in
front of the set-bit entries (in order): a stable partition by bit `b`. -/
def radixPass (b : Nat) (l : List KvEntry) : List KvEntry :=
  l.filter (fun e => !(testBitKey b e)) ++ l.filter (fun e => testBitKey b e)

/-- The 32 radix passes of `BulkPutOp::execute` (`for bit in 0..32u32`). -/
def radixSort (l : List KvEntry) : List KvEntry :=
  (List.range 32).foldl (fun acc b => radixPass b acc) l

/-- `dedup_flags` keeps entry `idx` iff `idx` is the last index or its key
differs from the key at `idx + 1`; `dedup_compact` writes the kept entries
in order.  For a sorted batch this keeps the last entry of each key run. -/
def dedupLast : List KvEntry → List KvEntry
  | [] => []
  | [e] => [e]
  | e :: f :: rest =>
    if e.key == f.key then dedupLast (f :: rest)
    else e :: dedupLast (f :: rest)

/-- The merge loop of `BULK_MERGE_WGSL` with an explicit step budget (the
loop runs exactly `slab_len + input_len` iterations, so a budget of the
combined length is never exhausted; `mergeSI` below supplies it). -/
def mergeFuel : Nat → List KvEntry → List KvEntry → List KvEntry
  | _, [], ys => ys
  | _, x :: xs, [] => x :: xs
  | 0, xs, _ => xs
  | n + 1, a :: as, b :: bs =>
    if a.key < b.key then a :: mergeFuel n as (b :: bs)
    else b :: mergeFuel n (a :: as) bs

/-- The mathematical two-list merge of `BULK_MERGE_WGSL`: each chunk
compares `slab[i].key < input[j].key` and emits the slab entry only on
strict inequality, so on equal keys the input entry lands first.  A chunk
with index `c` writes exactly the positions `[256c, 256(c+1))` of this
sequence, but only the 64 chunks the host actually dispatches run, so the
device obtains the prefix `(mergeSI ...).take MERGE_WINDOW` of it (see
`mergedState`), which is the whole sequence only when the merged total is
at most `MERGE_WINDOW`. -/
def mergeSI (xs ys : List KvEntry) : List KvEntry :=
  mergeFuel (xs.length + ys.length) xs ys

/-- The number of merged positions the bulk-merge dispatch can write:
`BulkPutOp::execute` issues `dispatch_workgroups(1, 1, 1)` for
`BULK_MERGE_WGSL` (`@workgroup_size(64)`), so `gid.x < 64`, and each
invocation writes one `chunk_size = 256` chunk: `64 * 256 = 16384`. -/
def MERGE_WINDOW : Nat := 16384

/-- The persistent state of `GpuSortedMap`: the entries `slab_buffer[0, len)`
together with the host-side `len` (mirrored into `meta_buffer`), the fixed
`capacity`, and the contents of the capacity-sized persistent
`merge_buffer` (`mbuf`), which wgpu zero-initializes at creation and which
each merge pass overwrites only below `MERGE_WINDOW`. -/
structure MapState where
  slab : List KvEntry
  len : Nat
  capacity : Nat
  mbuf : List KvEntry
deriving DecidableEq, Repr

/-- `GpuMapError` from `src/lib.rs`: the only variant is
`CapacityExceeded { capacity, requested }`. -/
inductive GpuMapError where
  | CapacityExceeded (capacity requested : Nat)
deriving DecidableEq, Repr

instance : DecidableEq (Except GpuMapError MapState) := fun a b =>
  match a, b with
  | .ok x, .ok y =>
    if h : x = y then .isTrue (by rw [h]) else .isFalse (by simp [h])
  | .error x, .error y =>
    if h : x = y then .isTrue (by rw [h]) else .isFalse (by simp [h])
  | .ok _, .error _ => .isFalse (by simp)
  | .error _, .ok _ => .isFalse (by simp)

/-- `GpuSortedMap::new(capacity)`: empty slab, `len = 0`, and a
zero-initialized capacity-sized merge buffer (wgpu creates buffers
zero-filled). -/
def newMap (capacity : Nat) : MapState :=
  { slab := [], len := 0, capacity := capacity,
    mbuf := List.replicate capacity { key := 0, value := 0 } }

/-- `GpuSortedMap::capacity`. -/
def MapState.capacityOf (s : MapState) : Nat := s.capacity

/-- `GpuSortedMap::len`: returns the host `len` field verbatim. -/
def MapState.lenOf (s : MapState) : Nat := s.len

/-- The deduplicated sorted batch written to the compact buffer before the
merge (`dedup_compact` output, whose length `write_input_meta` stores into
`input_meta.len`). -/
def compactBatch (b : List KvEntry) : List KvEntry :=
  dedupLast (radixSort b)

/-- The state after the merge pass of `BulkPutOp::execute` on the
deduplicated batch `compact`: the dispatched chunks write the merged
positions below `min (slab_len + input_len) MERGE_WINDOW` into the
persistent merge buffer, whose remaining entries keep their previous
values; the encoder then copies the whole capacity-sized merge buffer over
the slab buffer, and `merge_meta.len = slab_len + input_len` (written by
chunk 0, which always runs) becomes the host `len`.  The visible slab is
`slab_buffer[0, len)`. -/
def mergedState (s : MapState) (compact : List KvEntry) : MapState :=
  { s with
      slab :=
        ((mergeSI s.slab compact).take
            (min (s.len + compact.length) MERGE_WINDOW)
          ++ s.mbuf.drop (min (s.len + compact.length) MERGE_WINDOW)).take
          (s.len + compact.length),
      len := s.len + compact.length,
      mbuf :=
        (mergeSI s.slab compact).take
            (min (s.len + compact.length) MERGE_WINDOW)
          ++ s.mbuf.drop (min (s.len + compact.length) MERGE_WINDOW) }

/-- `GpuSortedMap::bulk_put` / `BulkPutOp::execute`: empty batches return
`Ok` immediately; otherwise the batch is sorted and deduplicated,
`capacity_check` fails iff `slab_meta.len + input_meta.len > capacity`
(reporting `requested = map.len + unique`), and on success the truncated
merge output replaces the slab while `len` becomes the merged length
`slab_len + input_len` (see `mergedState`). -/
def bulkPut (s : MapState) (entries : List KvEntry) : Except GpuMapError MapState :=
  if entries.isEmpty then .ok s
  else
    let compact := compactBatch entries
    if s.len + compact.length > s.capacity then
      .error (.CapacityExceeded s.capacity (s.len + compact.length))
    else
      .ok (mergedState s compact)

/-- The binary-search loop of `BULK_GET_WGSL` (`lo = 0; hi = slab_meta.len;
while lo < hi { mid = (lo + hi) / 2; if slab[mid].key < key { lo = mid + 1 }
else { hi = mid } }`), with an explicit iteration budget: every iteration
shrinks `hi - lo`, so a budget of the initial `hi - lo` is never
exhausted (`lbSearch` below supplies it). -/
def lbFuel (slab : List KvEntry) (key : Nat) : Nat → Nat → Nat → Nat
  | 0, lo, _ => lo
  | n + 1, lo, hi =>
    if lo < hi then
      if (slab.getD ((lo + hi) / 2) default).key < key then
        lbFuel slab key n ((lo + hi) / 2 + 1) hi
      else lbFuel slab key n lo ((lo + hi) / 2)
    else lo

/-- The lower-bound binary search of `BULK_GET_WGSL` and of the
`lower_bound` helper in `RANGE_WGSL` (the two loops are identical). -/
def lbSearch (slab : List KvEntry) (key : Nat) (lo hi : Nat) : Nat :=
  lbFuel slab key (hi - lo) lo hi

/-- One thread of `BULK_GET_WGSL`: lower-bound search over `[0, len)`, then
report the value at the landing index unless it is out of range, has a
different key, or stores the tombstone. -/
def lookupOne (s : MapState) (key : Nat) : Option Nat :=
  let lo := lbSearch s.slab key 0 s.len
  if lo < s.len ∧ (s.slab.getD lo default).key == key then
    let v := (s.slab.getD lo default).value
    if v == TOMBSTONE then none else some v
  else none

/-- `GpuSortedMap::bulk_get`: empty key slices return the empty vector
without device work; otherwise each key is looked up independently. -/
def bulkGet (s : MapState) (keys : List Nat) : List (Option Nat) :=
  if keys.isEmpty then [] else keys.map (lookupOne s)

/-- `GpuSortedMap::get`: `bulk_get(&[key]).into_iter().next().unwrap_or(None)`. -/
def get (s : MapState) (key : Nat) : Option Nat :=
  (bulkGet s [key]).headD none

/-- `GpuSortedMap::put`. -/
def put (s : MapState) (key value : Nat) : Except GpuMapError MapState :=
  bulkPut s [{ key := key, value := value }]

/-- `BulkDeleteOp::new` maps every key to `KvEntry { key, TOMBSTONE_VALUE }`
and `BulkDeleteOp::execute` runs `BulkPutOp` on that batch;
`GpuSortedMap::bulk_delete` short-circuits empty slices. -/
def bulkDelete (s : MapState) (keys : List Nat) : Except GpuMapError MapState :=
  if keys.isEmpty then .ok s
  else bulkPut s (keys.map (fun k => { key := k, value := TOMBSTONE }))

/-- `GpuSortedMap::delete`. -/
def delete (s : MapState) (key : Nat) : Except GpuMapError MapState :=
  bulkDelete s [key]

/-- `RangeScanPipeline::execute` from `src/pipelines/range_scan.rs`: the host
returns empty when `from_key >= to_key` or the slab is empty; otherwise the
shader computes `start = lower_bound(from_key)` and `end =
lower_bound(to_key)` and the host copies back `slab[start..end]` verbatim
(returning empty when `end <= start`). -/
def rangeScan (slab : List KvEntry) (fromKey toKey : Nat) : List KvEntry :=
  if fromKey ≥ toKey ∨ slab.length == 0 then []
  else
    let start := lbSearch slab fromKey 0 slab.length
    let stop := lbSearch slab toKey 0 slab.length
    if stop ≤ start then []
    else (slab.drop start).take (stop - start)

/-! Specification-side vocabulary used to state properties of the embedded
operations. -/

/-- The sublist of entries carrying key `k`, in slab order. -/
def filterKey (k : Nat) (l : List KvEntry) : List KvEntry :=
  l.filter (fun e => e.key == k)

/-- View an optional entry as a list of at most one entry. -/
def optList : Option KvEntry → List KvEntry
  | none => []
  | some e => [e]

/-- The number of leading slab entries whose key is below `k`: the
list-level lower bound that the binary search computes on a sorted slab. -/
def lbList (slab : List KvEntry) (k : Nat) : Nat :=
  (slab.takeWhile (fun e => decide (e.key < k))).length

/-- Keys are non-strictly ascending. -/
def SortedLe (l : List KvEntry) : Prop :=
  l.Pairwise (fun a b => a.key ≤ b.key)

/-- Keys are strictly ascending (the spec's invariants I1 + I2). -/
def SortedLt (l : List KvEntry) : Prop :=
  l.Pairwise (fun a b => a.key < b.key)

/-- The low `b` bits of the key; the radix sort establishes sortedness on
these bits one bit at a time. -/
def lowK (b : Nat) (e : KvEntry) : Nat := e.key % 2 ^ b

/-- Entries are non-strictly ascending on their low `b` key bits. -/
def SortedMod (b : Nat) (l : List KvEntry) : Prop :=
  l.Pairwise (fun x y => lowK b x ≤ lowK b y)

/-- The number of stored entries whose value is not the tombstone: the
"live count" of the specification. -/
def liveCount (l : List KvEntry) : Nat :=
  (l.filter (fun e => !(e.value == TOMBSTONE))).length

/-- The number of distinct keys occurring in a batch. -/
def distinctKeys (b : List KvEntry) : Nat :=
  ((b.map (fun e => e.key)).dedup).length

/-- The value carried by the first (lowest-index) slab entry with key `k`,
if any: this is the entry every lower-bound search lands on. -/
def slabVal (l : List KvEntry) (k : Nat) : Option Nat :=
  ((filterKey k l).head?).map (fun e => e.value)

/-- The value stored by the last batch entry carrying key `k`, if any. -/
def lastVal (b : List KvEntry) (k : Nat) : Option Nat :=
  ((filterKey k b).getLast?).map (fun e => e.value)

/-- Overwrite an abstract key-to-value map with the effect of a batch:
every key occurring in the batch now maps to the value of its last
occurrence (the tombstone value represents deletion). -/
def updBatch (m : Nat → Option Nat) (b : List KvEntry) : Nat → Option Nat :=
  fun k =>
    match lastVal b k with
    | some v => some v
    | none => m k

/-- The representation invariant relating the pieces of `MapState`: it
includes sortedness of the slab, which the truncated merge guarantees only
while every merge stays within `MERGE_WINDOW` (see `ReachWinTo`). -/
def Inv (s : MapState) : Prop :=
  SortedLe s.slab ∧ s.len = s.slab.length ∧ s.len ≤ s.capacity

/-- The bookkeeping facts that hold at every reachable state regardless of
the merge window: the host `len` is the stored slab length (chunk 0 of the
merge always writes `merge_meta.len = slab_len + input_len`), it never
exceeds the capacity, and the merge buffer keeps its capacity-sized
footprint. -/
def WfBuf (s : MapState) : Prop :=
  s.len = s.slab.length ∧ s.len ≤ s.capacity ∧ s.mbuf.length = s.capacity

instance : DecidablePred SortedLe := fun l =>
  inferInstanceAs (Decidable (l.Pairwise (fun a b : KvEntry => a.key ≤ b.key)))

instance : DecidablePred SortedLt := fun l =>
  inferInstanceAs (Decidable (l.Pairwise (fun a b : KvEntry => a.key < b.key)))

instance (s : MapState) : Decidable (Inv s) :=
  inferInstanceAs
    (Decidable (SortedLe s.slab ∧ s.len = s.slab.length ∧ s.len ≤ s.capacity))

/-- The states reachable through the public API, paired with the abstract
history: `m k` is the value stored by the most recent successful write
affecting `k` (`some TOMBSTONE` after a delete, `none` if `k` was never
written).  Failed calls and read-only calls leave the state unchanged, so
they need no constructor. -/
inductive ReachTo : MapState → (Nat → Option Nat) → Prop
  | new (c : Nat) : ReachTo (newMap c) (fun _ => none)
  | putOk {s m b s1} : ReachTo s m → BatchWf b → bulkPut s b = .ok s1 →
      ReachTo s1 (updBatch m b)
  | deleteOk {s m ks s1} : ReachTo s m → (∀ k ∈ ks, k < U32LIM) →
      bulkDelete s ks = .ok s1 →
      ReachTo s1 (updBatch m (ks.map (fun k => { key := k, value := TOMBSTONE })))

/-- A state reachable through some history of public calls. -/
def Reachable (s : MapState) : Prop := ∃ m, ReachTo s m

/-- Reachability through histories in which every successful write kept
the merged total `slab_len + deduped_batch_len` within `MERGE_WINDOW`, so
that the dispatched merge chunks wrote every merged position.  Only these
histories keep the slab sorted; beyond the window the merge truncates (see
the C1 and C10 records). -/
inductive ReachWinTo : MapState → (Nat → Option Nat) → Prop
  | new (c : Nat) : ReachWinTo (newMap c) (fun _ => none)
  | putOk {s m b s1} : ReachWinTo s m → BatchWf b →
      s.len + (compactBatch b).length ≤ MERGE_WINDOW →
      bulkPut s b = .ok s1 → ReachWinTo s1 (updBatch m b)
  | deleteOk {s m ks s1} : ReachWinTo s m → (∀ k ∈ ks, k < U32LIM) →
      s.len + (compactBatch
          (ks.map (fun k => { key := k, value := TOMBSTONE }))).length
        ≤ MERGE_WINDOW →
      bulkDelete s ks = .ok s1 →
      ReachWinTo s1 (updBatch m (ks.map (fun k => { key := k, value := TOMBSTONE })))

/-- A state reachable through window-respecting histories. -/
def ReachWin (s : MapState) : Prop := ∃ m, ReachWinTo s m

/-- A batch of 16385 already-sorted distinct-key entries: one more entry
than the dispatched merge chunks can write. -/
def bigBatch : List KvEntry :=
  (List.range 16385).map (fun k => { key := k, value := 7 })

/-- A batch of 16384 distinct keys `1..16384`, used to push a one-entry
slab past the merge window. -/
def batch10 : List KvEntry :=
  (List.range 16384).map (fun k => { key := k + 1, value := 9 })

/-! ### Small facts about filterKey -/

theorem filterKey_cons (k : Nat) (e : KvEntry) (l : List KvEntry) :
    filterKey k (e :: l)
      = if e.key == k then e :: filterKey k l else filterKey k l := by
  simp only [filterKey, List.filter_cons]

theorem filterKey_nil (k : Nat) : filterKey k [] = [] := rfl

theorem filterKey_append (k : Nat) (l1 l2 : List KvEntry) :
    filterKey k (l1 ++ l2) = filterKey k l1 ++ filterKey k l2 := by
  simp [filterKey]

theorem mem_of_mem_filterKey {k : Nat} {l : List KvEntry} {e : KvEntry}
    (h : e ∈ filterKey k l) : e ∈ l :=
  (List.mem_filter.mp h).1

theorem key_of_mem_filterKey {k : Nat} {l : List KvEntry} {e : KvEntry}
    (h : e ∈ filterKey k l) : e.key = k := by
  have := (List.mem_filter.mp h).2
  simpa using this

/-- Two sorted entry lists with the same per-key sublists are equal: a
sorted list is the concatenation of its key runs in key order. -/
theorem sorted_filterKey_ext : ∀ {l1 l2 : List KvEntry}, SortedLe l1 →
    SortedLe l2 → (∀ k, filterKey k l1 = filterKey k l2) → l1 = l2 := by
  intro l1
  induction l1 with
  | nil =>
    intro l2 _ _ hf
    cases l2 with
    | nil => rfl
    | cons b t2 =>
      exfalso
      have hb := hf b.key
      rw [filterKey_nil, filterKey_cons, if_pos (by simp)] at hb
      cases hb
  | cons a t1 IH =>
    intro l2 h1 h2 hf
    cases l2 with
    | nil =>
      exfalso
      have ha := hf a.key
      rw [filterKey_nil, filterKey_cons, if_pos (by simp)] at ha
      cases ha
    | cons b t2 =>
      rw [SortedLe, List.pairwise_cons] at h1 h2
      have hamem : a ∈ b :: t2 := by
        refine mem_of_mem_filterKey (k := a.key) ?_
        rw [← hf a.key, filterKey_cons, if_pos (by simp)]
        exact List.mem_cons_self a _
      have hbmem : b ∈ a :: t1 := by
        refine mem_of_mem_filterKey (k := b.key) ?_
        rw [hf b.key, filterKey_cons, if_pos (by simp)]
        exact List.mem_cons_self b _
      have hba : b.key ≤ a.key := by
        rcases List.mem_cons.mp hamem with rfl | hat2
        · exact Nat.le_refl _
        · exact h2.1 a hat2
      have hab : a.key ≤ b.key := by
        rcases List.mem_cons.mp hbmem with heq | hbt1
        · exact Nat.le_of_eq (congrArg KvEntry.key heq.symm)
        · exact h1.1 b hbt1
      have hkey : a.key = b.key := Nat.le_antisymm hab hba
      have hhead := hf a.key
      rw [filterKey_cons, if_pos (by simp), filterKey_cons,
        if_pos (by simp [hkey])] at hhead
      have hae : a = b := (List.cons_eq_cons.mp hhead).1
      have htail0 : filterKey a.key t1 = filterKey a.key t2 :=
        (List.cons_eq_cons.mp hhead).2
      have htail : ∀ k, filterKey k t1 = filterKey k t2 := by
        intro k
        by_cases hk : k = a.key
        · rw [hk]
          exact htail0
        · have hkk := hf k
          rw [filterKey_cons, if_neg (by simp; omega), filterKey_cons,
            if_neg (by simp; omega)] at hkk
          exact hkk
      rw [hae, IH h1.2 h2.2 htail]

/-- In a strictly sorted list every key occurs on exactly one entry. -/
theorem filterKey_of_sortedLt : ∀ {l : List KvEntry}, SortedLt l →
    ∀ {e : KvEntry}, e ∈ l → filterKey e.key l = [e] := by
  intro l
  induction l with
  | nil =>
    intro _ e he
    cases he
  | cons a t IH =>
    intro h e he
    rw [SortedLt, List.pairwise_cons] at h
    rcases List.mem_cons.mp he with rfl | ht
    · rw [filterKey_cons, if_pos (by simp)]
      have htnil : filterKey e.key t = [] := by
        rw [filterKey, List.filter_eq_nil_iff]
        intro x hx
        have := h.1 x hx
        simp
        omega
      rw [htnil]
    · have hne : a.key ≠ e.key := Nat.ne_of_lt (h.1 e ht)
      rw [filterKey_cons, if_neg (by simp; omega), IH h.2 ht]

/-! ### The radix sort stage -/

theorem testBitKey_eq (b : Nat) (e : KvEntry) :
    testBitKey b e = (e.key / 2 ^ b % 2 == 1) := by
  rw [testBitKey, Nat.shiftRight_eq_div_pow, Nat.and_one_is_mod]

theorem lowK_succ (b : Nat) (e : KvEntry) :
    lowK (b + 1) e = lowK b e + 2 ^ b * (e.key / 2 ^ b % 2) := by
  rw [lowK, lowK, pow_succ, Nat.mod_mul]

theorem lowK_lt (b : Nat) (e : KvEntry) : lowK b e < 2 ^ b :=
  Nat.mod_lt _ (Nat.pos_pow_of_pos _ (by norm_num))

theorem radixPass_perm (b : Nat) (l : List KvEntry) : (radixPass b l).Perm l := by
  have h := List.filter_append_perm (fun e => !(testBitKey b e)) l
  simpa [radixPass, Bool.not_not] using h

theorem filterKey_radixPass (b k : Nat) (l : List KvEntry) :
    filterKey k (radixPass b l) = filterKey k l := by
  rw [radixPass, filterKey_append]
  rw [show filterKey k (List.filter (fun e => !(testBitKey b e)) l)
        = List.filter (fun e => (e.key == k) && !(testBitKey b e)) l from by
      rw [filterKey, List.filter_filter]]
  rw [show filterKey k (List.filter (fun e => testBitKey b e) l)
        = List.filter (fun e => (e.key == k) && testBitKey b e) l from by
      rw [filterKey, List.filter_filter]]
  have htb : ∀ e : KvEntry, e.key = k → testBitKey b e = testBitKey b ⟨k, 0⟩ := by
    intro e he
    rw [testBitKey, testBitKey, he]
  cases hcb : testBitKey b ⟨k, 0⟩ with
  | false =>
    have h1 : List.filter (fun e => (e.key == k) && !(testBitKey b e)) l
        = filterKey k l := by
      rw [filterKey]
      refine List.filter_congr ?_
      intro e _
      by_cases he : e.key = k
      · rw [htb e he, hcb]
        simp [he]
      · simp [he]
    have h2 : List.filter (fun e => (e.key == k) && testBitKey b e) l = [] := by
      rw [List.filter_eq_nil_iff]
      intro e _
      by_cases he : e.key = k
      · rw [htb e he, hcb]
        simp
      · simp [he]
    rw [h1, h2, List.append_nil]
  | true =>
    have h1 : List.filter (fun e => (e.key == k) && !(testBitKey b e)) l = [] := by
      rw [List.filter_eq_nil_iff]
      intro e _
      by_cases he : e.key = k
      · rw [htb e he, hcb]
        simp
      · simp [he]
    have h2 : List.filter (fun e => (e.key == k) && testBitKey b e) l
        = filterKey k l := by
      rw [filterKey]
      refine List.filter_congr ?_
      intro e _
      by_cases he : e.key = k
      · rw [htb e he, hcb]
        simp [he]
      · simp [he]
    rw [h1, h2, List.nil_append]

theorem sortedMod_zero (l : List KvEntry) : SortedMod 0 l := by
  rw [SortedMod]
  induction l with
  | nil => exact List.Pairwise.nil
  | cons e t IH =>
    refine List.Pairwise.cons (fun y _ => ?_) IH
    simp only [lowK, pow_zero]
    omega

theorem testBitKey_false_mod {b : Nat} {e : KvEntry}
    (h : testBitKey b e = false) : e.key / 2 ^ b % 2 = 0 := by
  rw [testBitKey_eq] at h
  have := Nat.mod_lt (e.key / 2 ^ b) (show 0 < 2 by norm_num)
  simp only [beq_eq_false_iff_ne, ne_eq] at h
  omega

theorem testBitKey_true_mod {b : Nat} {e : KvEntry}
    (h : testBitKey b e = true) : e.key / 2 ^ b % 2 = 1 := by
  rw [testBitKey_eq] at h
  simpa using h

theorem sortedMod_radixPass {b : Nat} {l : List KvEntry} (h : SortedMod b l) :
    SortedMod (b + 1) (radixPass b l) := by
  rw [SortedMod] at h
  rw [SortedMod, radixPass, List.pairwise_append]
  refine ⟨?_, ?_, ?_⟩
  · refine (List.Pairwise.filter _ h).imp_of_mem ?_
    intro x y hx hy hr
    have hxb := testBitKey_false_mod (by simpa using (List.mem_filter.mp hx).2)
    have hyb := testBitKey_false_mod (by simpa using (List.mem_filter.mp hy).2)
    rw [lowK_succ, lowK_succ, hxb, hyb]
    omega
  · refine (List.Pairwise.filter _ h).imp_of_mem ?_
    intro x y hx hy hr
    have hxb := testBitKey_true_mod ((List.mem_filter.mp hx).2)
    have hyb := testBitKey_true_mod ((List.mem_filter.mp hy).2)
    rw [lowK_succ, lowK_succ, hxb, hyb]
    omega
  · intro x hx y hy
    have hxb := testBitKey_false_mod (by simpa using (List.mem_filter.mp hx).2)
    have hyb := testBitKey_true_mod ((List.mem_filter.mp hy).2)
    have hxlt := lowK_lt b x
    rw [lowK_succ, lowK_succ, hxb, hyb]
    omega

theorem sortedMod_radixSortAux : ∀ (n : Nat) (l : List KvEntry),
    SortedMod n ((List.range n).foldl (fun acc b => radixPass b acc) l) := by
  intro n
  induction n with
  | zero =>
    intro l
    exact sortedMod_zero l
  | succ n IH =>
    intro l
    rw [List.range_succ, List.foldl_append]
    simp only [List.foldl_cons, List.foldl_nil]
    exact sortedMod_radixPass (IH l)

theorem radixSortAux_perm : ∀ (n : Nat) (l : List KvEntry),
    ((List.range n).foldl (fun acc b => radixPass b acc) l).Perm l := by
  intro n
  induction n with
  | zero =>
    intro l
    exact List.Perm.refl l
  | succ n IH =>
    intro l
    rw [List.range_succ, List.foldl_append]
    simp only [List.foldl_cons, List.foldl_nil]
    exact (radixPass_perm _ _).trans (IH l)

theorem radixSort_perm (l : List KvEntry) : (radixSort l).Perm l :=
  radixSortAux_perm 32 l

theorem filterKey_radixSortAux : ∀ (n k : Nat) (l : List KvEntry),
    filterKey k ((List.range n).foldl (fun acc b => radixPass b acc) l)
      = filterKey k l := by
  intro n
  induction n with
  | zero =>
    intro k l
    rfl
  | succ n IH =>
    intro k l
    rw [List.range_succ, List.foldl_append]
    simp only [List.foldl_cons, List.foldl_nil]
    rw [filterKey_radixPass, IH]

theorem filterKey_radixSort (k : Nat) (l : List KvEntry) :
    filterKey k (radixSort l) = filterKey k l :=
  filterKey_radixSortAux 32 k l

theorem sortedLe_radixSort {l : List KvEntry} (h : ∀ e ∈ l, e.key < U32LIM) :
    SortedLe (radixSort l) := by
  have hs := sortedMod_radixSortAux 32 l
  rw [SortedMod] at hs
  rw [SortedLe]
  refine hs.imp_of_mem ?_
  intro x y hx hy hr
  have hx2 : x ∈ l := (radixSort_perm l).mem_iff.mp hx
  have hy2 : y ∈ l := (radixSort_perm l).mem_iff.mp hy
  have hpow : (2 : Nat) ^ 32 = U32LIM := by norm_num [U32LIM]
  rw [lowK, lowK, hpow, Nat.mod_eq_of_lt (h x hx2),
    Nat.mod_eq_of_lt (h y hy2)] at hr
  exact hr

/-- The radix sort is the identity on sorted batches: it is a permutation
that preserves every per-key sublist, and its output is sorted. -/
theorem radixSort_eq_of_sorted {l : List KvEntry}
    (hwf : ∀ e ∈ l, e.key < U32LIM) (hs : SortedLe l) : radixSort l = l :=
  sorted_filterKey_ext (sortedLe_radixSort hwf) hs
    (fun k => filterKey_radixSort k l)

attribute [irreducible] radixSort

/-! ### The dedup stage -/

theorem dedupLast_sublist : ∀ l : List KvEntry, (dedupLast l).Sublist l := by
  intro l
  induction l with
  | nil => simp [dedupLast]
  | cons e t IH =>
    cases t with
    | nil => simp [dedupLast]
    | cons f rest =>
      simp only [dedupLast]
      by_cases hef : e.key = f.key
      · rw [if_pos (by simp [hef])]
        exact IH.cons e
      · rw [if_neg (by simp [hef])]
        exact IH.cons₂ e

theorem mem_dedupLast {l : List KvEntry} {x : KvEntry}
    (h : x ∈ dedupLast l) : x ∈ l :=
  (dedupLast_sublist l).subset h

theorem dedupLast_ne_nil : ∀ {l : List KvEntry}, l ≠ [] → dedupLast l ≠ [] := by
  intro l
  induction l with
  | nil => intro h; exact absurd rfl h
  | cons e t IH =>
    intro _
    cases t with
    | nil => simp [dedupLast]
    | cons f rest =>
      simp only [dedupLast]
      by_cases hef : e.key = f.key
      · rw [if_pos (by simp [hef])]
        exact IH (by simp)
      · rw [if_neg (by simp [hef])]
        simp

theorem sortedLt_dedupLast : ∀ {l : List KvEntry}, SortedLe l → SortedLt (dedupLast l) := by
  intro l
  induction l with
  | nil => intro _; simp [dedupLast, SortedLt]
  | cons e t IH =>
    intro hs
    rw [SortedLe, List.pairwise_cons] at hs
    cases t with
    | nil => simp [dedupLast, SortedLt]
    | cons f rest =>
      simp only [dedupLast]
      by_cases hef : e.key = f.key
      · rw [if_pos (by simp [hef])]
        exact IH hs.2
      · rw [if_neg (by simp [hef])]
        rw [SortedLt, List.pairwise_cons]
        refine ⟨?_, IH hs.2⟩
        intro x hx
        have hx2 : x ∈ f :: rest := mem_dedupLast hx
        have hef3 : e.key < f.key :=
          Nat.lt_of_le_of_ne (hs.1 f (by simp)) hef
        rcases List.mem_cons.mp hx2 with rfl | hx2
        · exact hef3
        · have h2 := hs.2
          rw [List.pairwise_cons] at h2
          exact Nat.lt_of_lt_of_le hef3 (h2.1 x hx2)

theorem filterKey_dedupLast : ∀ {l : List KvEntry}, SortedLe l → ∀ k,
    filterKey k (dedupLast l) = optList ((filterKey k l).getLast?) := by
  intro l
  induction l with
  | nil => intro _ k; simp [dedupLast, filterKey, optList]
  | cons e t IH =>
    intro hs k
    rw [SortedLe, List.pairwise_cons] at hs
    cases t with
    | nil =>
      simp only [dedupLast]
      rw [filterKey_cons]
      by_cases hek : e.key = k
      · simp [hek, optList, filterKey_nil]
      · simp [hek, optList, filterKey_nil]
    | cons f rest =>
      simp only [dedupLast]
      by_cases hef : e.key = f.key
      · rw [if_pos (by simp [hef])]
        rw [IH hs.2 k]
        by_cases hek : e.key = k
        · have hfk : filterKey k (f :: rest) = f :: filterKey k rest := by
            rw [filterKey_cons, if_pos (by simp [← hef, hek])]
          rw [show filterKey k (e :: f :: rest)
                = e :: filterKey k (f :: rest) from by
              rw [filterKey_cons, if_pos (by simp [hek])]]
          rw [hfk, List.getLast?_cons_cons]
        · rw [show filterKey k (e :: f :: rest)
                = filterKey k (f :: rest) from by
              rw [filterKey_cons, if_neg (by simp [hek])]]
      · rw [if_neg (by simp [hef])]
        rw [filterKey_cons, IH hs.2 k]
        by_cases hek : e.key = k
        · have hfr : filterKey k (f :: rest) = [] := by
            rw [filterKey, List.filter_eq_nil_iff]
            intro x hx
            have hef3 : e.key < f.key :=
              Nat.lt_of_le_of_ne (hs.1 f (by simp)) hef
            rcases List.mem_cons.mp hx with rfl | hx
            · simp only [beq_iff_eq]
              omega
            · have h2 := hs.2
              rw [List.pairwise_cons] at h2
              have := h2.1 x hx
              simp only [beq_iff_eq]
              omega
          rw [hfr]
          rw [show filterKey k (e :: f :: rest) = [e] from by
              rw [filterKey_cons, if_pos (by simp [hek]), hfr]]
          simp [hek, optList, filterKey_nil]
        · rw [show filterKey k (e :: f :: rest) = filterKey k (f :: rest) from by
              rw [filterKey_cons, if_neg (by simp [hek])]]
          rw [if_neg (by simp [hek])]

theorem mem_map_key_iff_filterKey (l : List KvEntry) (k : Nat) :
    k ∈ l.map (fun e => e.key) ↔ filterKey k l ≠ [] := by
  rw [filterKey]
  constructor
  · intro h hnil
    rw [List.filter_eq_nil_iff] at hnil
    rcases List.mem_map.mp h with ⟨e, he, rfl⟩
    exact hnil e he (by simp)
  · intro h
    rcases List.exists_cons_of_ne_nil h with ⟨x, xs, hx⟩
    have hmem : x ∈ List.filter (fun e => e.key == k) l := by
      rw [hx]; simp
    rcases List.mem_filter.mp hmem with ⟨hxl, hxk⟩
    exact List.mem_map.mpr ⟨x, hxl, by simpa using hxk⟩

theorem optList_ne_nil {o : Option KvEntry} : optList o ≠ [] ↔ o ≠ none := by
  cases o <;> simp [optList]

theorem mem_map_key_dedupLast {l : List KvEntry} (hs : SortedLe l) (k : Nat) :
    k ∈ (dedupLast l).map (fun e => e.key) ↔ k ∈ l.map (fun e => e.key) := by
  rw [mem_map_key_iff_filterKey, mem_map_key_iff_filterKey,
    filterKey_dedupLast hs k, optList_ne_nil, ne_eq,
    List.getLast?_eq_none_iff]

theorem length_dedupLast_eq_distinct {l : List KvEntry} (hs : SortedLe l) :
    (dedupLast l).length = distinctKeys l := by
  have hnd : ((dedupLast l).map (fun e => e.key)).Nodup := by
    have h1 := sortedLt_dedupLast hs
    rw [SortedLt] at h1
    have h2 : ((dedupLast l).map (fun e => e.key)).Pairwise (· < ·) :=
      List.pairwise_map.mpr h1
    exact h2.imp (fun hlt => Nat.ne_of_lt hlt)
  have hfin : ((dedupLast l).map (fun e => e.key)).toFinset
      = (l.map (fun e => e.key)).toFinset := by
    ext x
    rw [List.mem_toFinset, List.mem_toFinset]
    exact mem_map_key_dedupLast hs x
  calc (dedupLast l).length
      = ((dedupLast l).map (fun e => e.key)).length := by rw [List.length_map]
    _ = ((dedupLast l).map (fun e => e.key)).toFinset.card :=
        (List.toFinset_card_of_nodup hnd).symm
    _ = (l.map (fun e => e.key)).toFinset.card := by rw [hfin]
    _ = distinctKeys l := List.card_toFinset _

/-- Dedup is the identity on strictly sorted lists: no two adjacent keys
are equal, so every entry is the last of its run. -/
theorem dedupLast_of_sortedLt : ∀ {l : List KvEntry}, SortedLt l →
    dedupLast l = l := by
  intro l
  induction l with
  | nil =>
    intro _
    rfl
  | cons e t IH =>
    intro h
    cases t with
    | nil => rfl
    | cons f rest =>
      rw [SortedLt, List.pairwise_cons] at h
      have hef : e.key ≠ f.key := Nat.ne_of_lt (h.1 f (List.mem_cons_self f rest))
      show dedupLast (e :: f :: rest) = e :: f :: rest
      simp only [dedupLast]
      rw [if_neg (by simp [hef]), IH h.2]

/-! ### The compacted batch -/

theorem sortedLe_radixSortBatch {b : List KvEntry} (h : BatchWf b) :
    SortedLe (radixSort b) :=
  sortedLe_radixSort (fun e he => (h e he).1)

theorem sortedLt_compactBatch {b : List KvEntry} (h : BatchWf b) :
    SortedLt (compactBatch b) :=
  sortedLt_dedupLast (sortedLe_radixSortBatch h)

theorem sortedLe_compactBatch {b : List KvEntry} (h : BatchWf b) :
    SortedLe (compactBatch b) := by
  have h1 := sortedLt_compactBatch h
  rw [SortedLt] at h1
  rw [SortedLe]
  exact h1.imp (fun hlt => Nat.le_of_lt hlt)

theorem filterKey_compactBatch {b : List KvEntry} (h : BatchWf b) (k : Nat) :
    filterKey k (compactBatch b) = optList ((filterKey k b).getLast?) := by
  rw [compactBatch, filterKey_dedupLast (sortedLe_radixSortBatch h) k,
    filterKey_radixSort]

theorem distinctKeys_perm {l1 l2 : List KvEntry} (h : l1.Perm l2) :
    distinctKeys l1 = distinctKeys l2 := by
  simp only [distinctKeys]
  exact ((h.map (fun e => e.key)).dedup).length_eq

theorem length_compactBatch {b : List KvEntry} (h : BatchWf b) :
    (compactBatch b).length = distinctKeys b := by
  rw [compactBatch, length_dedupLast_eq_distinct (sortedLe_radixSortBatch h)]
  exact distinctKeys_perm (radixSort_perm b)

theorem compactBatch_ne_nil {b : List KvEntry} (h : b ≠ []) :
    compactBatch b ≠ [] := by
  rw [compactBatch]
  refine dedupLast_ne_nil ?_
  intro hnil
  have := (radixSort_perm b).length_eq
  rw [hnil] at this
  exact h (List.length_eq_zero.mp this.symm)

theorem mem_compactBatch {b : List KvEntry} {e : KvEntry}
    (h : e ∈ compactBatch b) : e ∈ b :=
  (radixSort_perm b).mem_iff.mp (mem_dedupLast h)

/-- Sorting and deduplicating a strictly sorted batch is the identity. -/
theorem compactBatch_of_sortedLt {b : List KvEntry} (hwf : BatchWf b)
    (hs : SortedLt b) : compactBatch b = b := by
  have hle : SortedLe b := by
    rw [SortedLt] at hs
    rw [SortedLe]
    exact hs.imp (fun hlt => Nat.le_of_lt hlt)
  rw [compactBatch, radixSort_eq_of_sorted (fun e he => (hwf e he).1) hle,
    dedupLast_of_sortedLt hs]

/-! ### The merge stage -/

theorem mergeFuel_length : ∀ (n : Nat) (xs ys : List KvEntry),
    xs.length + ys.length ≤ n →
    (mergeFuel n xs ys).length = xs.length + ys.length := by
  intro n
  induction n with
  | zero =>
    intro xs ys h
    match xs, ys with
    | [], ys => simp [mergeFuel]
    | x :: xs, [] => simp [mergeFuel]
    | _ :: _, _ :: _ => simp at h
  | succ n IH =>
    intro xs ys h
    match xs, ys with
    | [], ys => simp [mergeFuel]
    | x :: xs, [] => simp [mergeFuel]
    | a :: as, b :: bs =>
      simp only [mergeFuel]
      by_cases hab : a.key < b.key
      · simp only [if_pos hab, List.length_cons]
        rw [IH as (b :: bs) (by simp at h ⊢; omega)]
        simp; omega
      · simp only [if_neg hab, List.length_cons]
        rw [IH (a :: as) bs (by simp at h ⊢; omega)]
        simp; omega

theorem mem_mergeFuel : ∀ (n : Nat) (xs ys : List KvEntry),
    xs.length + ys.length ≤ n →
    ∀ x, x ∈ mergeFuel n xs ys ↔ x ∈ xs ∨ x ∈ ys := by
  intro n
  induction n with
  | zero =>
    intro xs ys h x
    match xs, ys with
    | [], ys => simp [mergeFuel]
    | x' :: xs, [] => simp [mergeFuel]
    | _ :: _, _ :: _ => simp at h
  | succ n IH =>
    intro xs ys h x
    match xs, ys with
    | [], ys => simp [mergeFuel]
    | x' :: xs, [] => simp [mergeFuel]
    | a :: as, b :: bs =>
      simp only [mergeFuel]
      by_cases hab : a.key < b.key
      · simp only [if_pos hab, List.mem_cons,
          IH as (b :: bs) (by simp at h ⊢; omega) x]
        tauto
      · simp only [if_neg hab, List.mem_cons,
          IH (a :: as) bs (by simp at h ⊢; omega) x]
        tauto

theorem sortedLe_mergeFuel : ∀ (n : Nat) (xs ys : List KvEntry),
    xs.length + ys.length ≤ n →
    SortedLe xs → SortedLe ys → SortedLe (mergeFuel n xs ys) := by
  intro n
  induction n with
  | zero =>
    intro xs ys h hxs hys
    match xs, ys with
    | [], ys => exact hys
    | x :: xs, [] => exact hxs
    | _ :: _, _ :: _ => simp at h
  | succ n IH =>
    intro xs ys h hxs hys
    match xs, ys with
    | [], ys => exact hys
    | x :: xs, [] => exact hxs
    | a :: as, b :: bs =>
      rw [SortedLe] at hxs hys
      rw [List.pairwise_cons] at hxs hys
      simp only [mergeFuel]
      by_cases hab : a.key < b.key
      · simp only [if_pos hab]
        rw [SortedLe, List.pairwise_cons]
        constructor
        · intro z hz
          rw [mem_mergeFuel n as (b :: bs) (by simp at h ⊢; omega) z] at hz
          rcases hz with hz | hz
          · exact hxs.1 z hz
          · rcases List.mem_cons.mp hz with rfl | hz
            · exact Nat.le_of_lt hab
            · exact Nat.le_trans (Nat.le_of_lt hab) (hys.1 z hz)
        · exact IH as (b :: bs) (by simp at h ⊢; omega) hxs.2
            (by rw [SortedLe, List.pairwise_cons]; exact hys)
      · simp only [if_neg hab]
        rw [SortedLe, List.pairwise_cons]
        constructor
        · intro z hz
          rw [mem_mergeFuel n (a :: as) bs (by simp at h ⊢; omega) z] at hz
          rcases hz with hz | hz
          · rcases List.mem_cons.mp hz with rfl | hz
            · exact Nat.le_of_not_lt hab
            · exact Nat.le_trans (Nat.le_of_not_lt hab) (hxs.1 z hz)
          · exact hys.1 z hz
        · exact IH (a :: as) bs (by simp at h ⊢; omega)
            (by rw [SortedLe, List.pairwise_cons]; exact hxs) hys.2

theorem filterKey_mergeFuel : ∀ (n : Nat) (xs ys : List KvEntry),
    xs.length + ys.length ≤ n → SortedLe ys → ∀ k,
    filterKey k (mergeFuel n xs ys) = filterKey k ys ++ filterKey k xs := by
  intro n
  induction n with
  | zero =>
    intro xs ys h hys k
    match xs, ys with
    | [], ys => simp [mergeFuel, filterKey]
    | x :: xs, [] => simp [mergeFuel, filterKey]
    | _ :: _, _ :: _ => simp at h
  | succ n IH =>
    intro xs ys h hys k
    match xs, ys with
    | [], ys => simp [mergeFuel, filterKey]
    | x :: xs, [] => simp [mergeFuel, filterKey]
    | a :: as, b :: bs =>
      rw [SortedLe, List.pairwise_cons] at hys
      simp only [mergeFuel]
      by_cases hab : a.key < b.key
      · simp only [if_pos hab]
        rw [filterKey_cons,
          IH as (b :: bs) (by simp at h ⊢; omega)
            (by rw [SortedLe, List.pairwise_cons]; exact hys) k]
        simp only [filterKey_cons]
        by_cases hak : a.key = k
        · have hbsk : filterKey k bs = [] := by
            rw [filterKey, List.filter_eq_nil_iff]
            intro e he
            have h1 := hys.1 e he
            simp only [beq_iff_eq]
            omega
          have hbk : (b.key == k) = false := by
            simp only [beq_eq_false_iff_ne, ne_eq]
            omega
          simp [hak, hbk, hbsk]
        · simp [hak]
      · simp only [if_neg hab]
        rw [filterKey_cons,
          IH (a :: as) bs (by simp at h ⊢; omega) hys.2 k]
        simp only [filterKey_cons]
        by_cases hbk : b.key = k
        · simp [hbk]
        · simp [hbk]

theorem mergeSI_length (xs ys : List KvEntry) :
    (mergeSI xs ys).length = xs.length + ys.length :=
  mergeFuel_length _ _ _ (Nat.le_refl _)

theorem mem_mergeSI (xs ys : List KvEntry) (x : KvEntry) :
    x ∈ mergeSI xs ys ↔ x ∈ xs ∨ x ∈ ys :=
  mem_mergeFuel _ _ _ (Nat.le_refl _) x

theorem sortedLe_mergeSI {xs ys : List KvEntry}
    (hxs : SortedLe xs) (hys : SortedLe ys) : SortedLe (mergeSI xs ys) :=
  sortedLe_mergeFuel _ _ _ (Nat.le_refl _) hxs hys

theorem filterKey_mergeSI {xs ys : List KvEntry} (hys : SortedLe ys) (k : Nat) :
    filterKey k (mergeSI xs ys) = filterKey k ys ++ filterKey k xs :=
  filterKey_mergeFuel _ _ _ (Nat.le_refl _) hys k

theorem mergeFuel_nil_left : ∀ (n : Nat) (ys : List KvEntry),
    mergeFuel n [] ys = ys := by
  intro n ys
  cases n <;> cases ys <;> rfl

theorem mergeSI_nil_left (ys : List KvEntry) : mergeSI [] ys = ys :=
  mergeFuel_nil_left _ ys

/-- Merging a single entry whose key is below every key of `ys` emits it
first and then copies `ys`. -/
theorem mergeSI_singleton_lt {a : KvEntry} {ys : List KvEntry}
    (h : ∀ e ∈ ys, a.key < e.key) : mergeSI [a] ys = a :: ys := by
  cases ys with
  | nil => rfl
  | cons b bs =>
    show mergeFuel ([a].length + (b :: bs).length) [a] (b :: bs) = a :: b :: bs
    rw [show [a].length + (b :: bs).length = (bs.length + 1) + 1 by
      simp [Nat.add_comm]]
    simp only [mergeFuel]
    rw [if_pos (h b (List.mem_cons_self b bs))]

/-! ### The binary search -/

theorem sorted_key_getD {slab : List KvEntry} (hs : SortedLe slab)
    {i j : Nat} (hij : i ≤ j) (hj : j < slab.length) :
    (slab.getD i default).key ≤ (slab.getD j default).key := by
  rcases Nat.eq_or_lt_of_le hij with rfl | hlt
  · exact Nat.le_refl _
  · rw [SortedLe, List.pairwise_iff_getElem] at hs
    rw [List.getD_eq_getElem _ _ (Nat.lt_trans hlt hj),
      List.getD_eq_getElem _ _ hj]
    exact hs i j (Nat.lt_trans hlt hj) hj hlt

theorem lbFuel_spec : ∀ (n : Nat) (slab : List KvEntry) (key lo hi : Nat),
    hi - lo ≤ n → lo ≤ hi → hi ≤ slab.length → SortedLe slab →
    lo ≤ lbFuel slab key n lo hi ∧ lbFuel slab key n lo hi ≤ hi ∧
    (∀ i, lo ≤ i → i < lbFuel slab key n lo hi →
      (slab.getD i default).key < key) ∧
    (∀ i, lbFuel slab key n lo hi ≤ i → i < hi →
      key ≤ (slab.getD i default).key) := by
  intro n
  induction n with
  | zero =>
    intro slab key lo hi hf hlh hhl hs
    simp only [lbFuel]
    exact ⟨Nat.le_refl _, hlh, fun i h1 h2 => absurd h2 (by omega),
      fun i h1 h2 => absurd h2 (by omega)⟩
  | succ n IH =>
    intro slab key lo hi hf hlh hhl hs
    simp only [lbFuel]
    by_cases hcond : lo < hi
    · rw [if_pos hcond]
      by_cases hkey : (slab.getD ((lo + hi) / 2) default).key < key
      · rw [if_pos hkey]
        obtain ⟨h1a, h1b, h1c, h1d⟩ :=
          IH slab key ((lo + hi) / 2 + 1) hi (by omega) (by omega) hhl hs
        refine ⟨by omega, h1b, ?_, h1d⟩
        intro i hi1 hi2
        by_cases hcase : (lo + hi) / 2 + 1 ≤ i
        · exact h1c i hcase hi2
        · exact Nat.lt_of_le_of_lt
            (sorted_key_getD hs (show i ≤ (lo + hi) / 2 by omega) (by omega))
            hkey
      · rw [if_neg hkey]
        obtain ⟨h1a, h1b, h1c, h1d⟩ :=
          IH slab key lo ((lo + hi) / 2) (by omega) (by omega) (by omega) hs
        refine ⟨h1a, by omega, h1c, ?_⟩
        intro i hi1 hi2
        by_cases hcase : i < (lo + hi) / 2
        · exact h1d i hi1 hcase
        · exact Nat.le_trans (Nat.le_of_not_lt hkey)
            (sorted_key_getD hs (show (lo + hi) / 2 ≤ i by omega)
              (show i < slab.length by omega))
    · rw [if_neg hcond]
      exact ⟨Nat.le_refl _, hlh, fun i h1 h2 => absurd h2 (by omega),
        fun i h1 h2 => absurd h2 (by omega)⟩

theorem lbList_le_length (slab : List KvEntry) (k : Nat) :
    lbList slab k ≤ slab.length := by
  rw [lbList]
  have := List.takeWhile_append_dropWhile
    (p := fun e => decide (e.key < k)) (l := slab)
  have h2 := congrArg List.length this
  rw [List.length_append] at h2
  omega

theorem lbList_lt_key (slab : List KvEntry) (k : Nat) :
    ∀ i, i < lbList slab k → (slab.getD i default).key < k := by
  intro i hi
  rw [lbList] at hi
  have hsplit := List.takeWhile_append_dropWhile
    (p := fun e => decide (e.key < k)) (l := slab)
  rw [show slab.getD i default
      = (slab.takeWhile (fun e => decide (e.key < k))).getD i default from by
    conv_lhs => rw [← hsplit]
    exact List.getD_append _ _ _ _ hi]
  have hmem : (slab.takeWhile (fun e => decide (e.key < k))).getD i default
      ∈ slab.takeWhile (fun e => decide (e.key < k)) := by
    rw [List.getD_eq_getElem _ _ hi]
    exact List.getElem_mem hi
  simpa using List.mem_takeWhile_imp hmem

theorem dropWhile_head_false {p : KvEntry → Bool} :
    ∀ {l : List KvEntry} {e : KvEntry} {rest : List KvEntry},
      l.dropWhile p = e :: rest → p e = false := by
  intro l
  induction l with
  | nil => intro e rest h; simp [List.dropWhile] at h
  | cons a t IH =>
    intro e rest h
    rw [List.dropWhile_cons] at h
    by_cases hp : p a = true
    · rw [if_pos hp] at h
      exact IH h
    · rw [if_neg hp] at h
      cases h
      simpa using hp

theorem dropWhile_key_ge {slab : List KvEntry} (hs : SortedLe slab) (k : Nat) :
    ∀ x ∈ slab.dropWhile (fun e => decide (e.key < k)), k ≤ x.key := by
  cases hdw : slab.dropWhile (fun e => decide (e.key < k)) with
  | nil => simp
  | cons e rest =>
    have hnot : ¬(e.key < k) := by simpa using dropWhile_head_false hdw
    have hsd : SortedLe (e :: rest) := by
      rw [SortedLe]
      refine List.Pairwise.sublist ?_ hs
      rw [← hdw]
      exact List.dropWhile_sublist _
    rw [SortedLe, List.pairwise_cons] at hsd
    intro x hx
    rcases List.mem_cons.mp hx with rfl | hx
    · omega
    · have := hsd.1 x hx
      omega

theorem lbList_ge_key {slab : List KvEntry} (hs : SortedLe slab) (k : Nat) :
    ∀ i, lbList slab k ≤ i → i < slab.length →
      k ≤ (slab.getD i default).key := by
  intro i hi1 hi2
  have hsplit := List.takeWhile_append_dropWhile
    (p := fun e => decide (e.key < k)) (l := slab)
  set tw := slab.takeWhile (fun e => decide (e.key < k)) with htw
  set dw := slab.dropWhile (fun e => decide (e.key < k)) with hdw
  rw [lbList, ← htw] at hi1
  have hlen : slab.length = tw.length + dw.length := by
    rw [← hsplit, List.length_append]
  have hidw : i - tw.length < dw.length := by omega
  have hget : slab.getD i default = dw.getD (i - tw.length) default := by
    conv_lhs => rw [← hsplit]
    rw [List.getD_eq_getElem _ _ (by rw [List.length_append]; omega),
      List.getD_eq_getElem _ _ hidw]
    exact List.getElem_append_right hi1
  rw [hget]
  refine dropWhile_key_ge hs k _ ?_
  rw [List.getD_eq_getElem _ _ hidw]
  exact List.getElem_mem hidw

theorem lbSearch_eq_lbList {slab : List KvEntry} (hs : SortedLe slab)
    (k : Nat) : lbSearch slab k 0 slab.length = lbList slab k := by
  obtain ⟨h1, h2, h3, h4⟩ := lbFuel_spec (slab.length - 0) slab k 0
    slab.length (Nat.le_refl _) (Nat.zero_le _) (Nat.le_refl _) hs
  rw [lbSearch]
  set r := lbFuel slab k (slab.length - 0) 0 slab.length with hr
  rcases Nat.lt_trichotomy r (lbList slab k) with hlt | heq | hgt
  · exfalso
    have ha := h4 r (Nat.le_refl _)
      (Nat.lt_of_lt_of_le hlt (lbList_le_length slab k))
    have hb := lbList_lt_key slab k r hlt
    omega
  · exact heq
  · exfalso
    have ha := h3 (lbList slab k) (Nat.zero_le _) hgt
    have hb := lbList_ge_key hs k (lbList slab k) (Nat.le_refl _)
      (Nat.lt_of_lt_of_le hgt h2)
    omega

theorem getD_append_length (l1 l2 : List KvEntry) (x : KvEntry)
    (d : KvEntry) : (l1 ++ x :: l2).getD l1.length d = x := by
  induction l1 with
  | nil => rfl
  | cons a t IH => simpa [List.getD_cons_succ] using IH

theorem lookupOne_eq {s : MapState} (hs : SortedLe s.slab)
    (hlen : s.len = s.slab.length) (k : Nat) :
    lookupOne s k =
      match (filterKey k s.slab).head? with
      | none => none
      | some e => if e.value == TOMBSTONE then none else some e.value := by
  rw [lookupOne]
  simp only [hlen]
  rw [lbSearch_eq_lbList hs k]
  have hsplit := List.takeWhile_append_dropWhile
    (p := fun e => decide (e.key < k)) (l := s.slab)
  set tw := s.slab.takeWhile (fun e => decide (e.key < k)) with htw
  set dw := s.slab.dropWhile (fun e => decide (e.key < k)) with hdwdef
  have htwk : filterKey k tw = [] := by
    rw [filterKey, List.filter_eq_nil_iff]
    intro e he
    have := List.mem_takeWhile_imp he
    simp only [decide_eq_true_eq] at this
    simp only [beq_iff_eq]
    omega
  have hfk : filterKey k s.slab = filterKey k dw := by
    conv_lhs => rw [← hsplit]
    rw [filterKey_append, htwk, List.nil_append]
  have hlb : lbList s.slab k = tw.length := by rw [lbList]
  cases hdw : dw with
  | nil =>
    have htweq : tw = s.slab := by
      have := hsplit
      rw [hdw, List.append_nil] at this
      exact this
    have hlb2 : lbList s.slab k = s.slab.length := by
      rw [hlb, htweq]
    rw [hlb2]
    have hcond : ¬(s.slab.length < s.slab.length ∧
        ((s.slab.getD s.slab.length default).key == k) = true) := by
      intro hc
      omega
    rw [if_neg hcond, hfk, hdw, filterKey_nil]
    rfl
  | cons e rest =>
    have hlenlt : tw.length < s.slab.length := by
      have := congrArg List.length hsplit
      rw [List.length_append, hdw, List.length_cons] at this
      omega
    have hgete : s.slab.getD tw.length default = e := by
      conv_lhs => rw [← hsplit, hdw]
      exact getD_append_length tw rest e default
    have hdw2 : s.slab.dropWhile (fun e => decide (e.key < k)) = e :: rest := by
      rw [← hdwdef]
      exact hdw
    have hke : ¬(e.key < k) := by simpa using dropWhile_head_false hdw2
    rw [hlb, hgete]
    by_cases hek : e.key = k
    · rw [if_pos ⟨hlenlt, by simp [hek]⟩]
      have hfcons : filterKey k (e :: rest) = e :: filterKey k rest := by
        rw [filterKey_cons, if_pos (by simp [hek])]
      rw [hfk, hdw, hfcons]
      rfl
    · rw [if_neg (by
        intro hc
        exact hek (by simpa using hc.2))]
      have hsd : SortedLe (e :: rest) := by
        rw [SortedLe]
        refine List.Pairwise.sublist ?_ hs
        rw [← hdw2]
        exact List.dropWhile_sublist _
      rw [SortedLe, List.pairwise_cons] at hsd
      have hdwk : filterKey k (e :: rest) = [] := by
        rw [filterKey, List.filter_eq_nil_iff]
        intro x hx
        simp only [beq_iff_eq]
        rcases List.mem_cons.mp hx with rfl | hx2
        · omega
        · have h2 := hsd.1 x hx2
          omega
      rw [hfk, hdw, hdwk]
      rfl

theorem get_eq_lookupOne (s : MapState) (k : Nat) :
    get s k = lookupOne s k := rfl

theorem bulkGet_eq_map (s : MapState) (keys : List Nat) :
    bulkGet s keys = keys.map (lookupOne s) := by
  cases keys with
  | nil => rfl
  | cons a l => rfl

/-- When every stored key is below the probed key, every probe moves `lo`
up and the search returns `hi`, whether or not the slab is sorted. -/
theorem lbFuel_all_lt {slab : List KvEntry} {key : Nat}
    (hall : ∀ e ∈ slab, e.key < key) :
    ∀ (n lo hi : Nat), lo ≤ hi → hi ≤ slab.length → hi - lo ≤ n →
      lbFuel slab key n lo hi = hi := by
  intro n
  induction n with
  | zero =>
    intro lo hi h1 _ h3
    simp only [lbFuel]
    omega
  | succ n IH =>
    intro lo hi h1 h2 h3
    simp only [lbFuel]
    by_cases hlt : lo < hi
    · rw [if_pos hlt]
      have hmid : (lo + hi) / 2 < slab.length := by omega
      have hprobe : (slab.getD ((lo + hi) / 2) default).key < key := by
        rw [List.getD_eq_getElem slab default hmid]
        exact hall _ (List.getElem_mem hmid)
      rw [if_pos hprobe]
      exact IH ((lo + hi) / 2 + 1) hi (by omega) h2 (by omega)
    · rw [if_neg hlt]
      omega

theorem lbSearch_all_lt {slab : List KvEntry} {key : Nat}
    (hall : ∀ e ∈ slab, e.key < key) {hi : Nat} (h2 : hi ≤ slab.length) :
    lbSearch slab key 0 hi = hi :=
  lbFuel_all_lt hall _ 0 hi (Nat.zero_le _) h2 (Nat.le_refl _)

/-- When every stored key is below `k`, the search lands at `len` and the
in-range test of `BULK_GET_WGSL` fails: `get` reports absent. -/
theorem get_none_of_keys_lt {s : MapState} {k : Nat}
    (hlen : s.len = s.slab.length) (hall : ∀ e ∈ s.slab, e.key < k) :
    get s k = none := by
  rw [get_eq_lookupOne, lookupOne]
  simp only [hlen]
  rw [lbSearch_all_lt hall (Nat.le_refl _)]
  rw [if_neg (fun hc => absurd hc.1 (Nat.lt_irrefl _))]

/-! ### The bulk-put pipeline and the representation invariant -/

theorem mergedState_len (s : MapState) (c : List KvEntry) :
    (mergedState s c).len = s.len + c.length := rfl

theorem mergedState_capacity (s : MapState) (c : List KvEntry) :
    (mergedState s c).capacity = s.capacity := rfl

/-- Within the merge window the truncated write is the whole merge: the 64
dispatched chunks cover every merged position, so the copied-back slab is
exactly the sequential merge. -/
theorem mergedState_slab_of_le {s : MapState} {c : List KvEntry}
    (hlen : s.len = s.slab.length)
    (hwin : s.len + c.length ≤ MERGE_WINDOW) :
    (mergedState s c).slab = mergeSI s.slab c := by
  have hml : (mergeSI s.slab c).length = s.len + c.length := by
    rw [mergeSI_length, hlen]
  show (((mergeSI s.slab c).take (min (s.len + c.length) MERGE_WINDOW)
      ++ s.mbuf.drop (min (s.len + c.length) MERGE_WINDOW)).take
      (s.len + c.length)) = mergeSI s.slab c
  rw [Nat.min_eq_left hwin, List.take_of_length_le (Nat.le_of_eq hml),
    ← hml, List.take_left]

theorem mergedState_mbuf_length {s : MapState} {c : List KvEntry}
    (hlen : s.len = s.slab.length) (hbuf : s.mbuf.length = s.capacity)
    (hcap : s.len + c.length ≤ s.capacity) :
    (mergedState s c).mbuf.length = s.capacity := by
  show ((mergeSI s.slab c).take (min (s.len + c.length) MERGE_WINDOW)
      ++ s.mbuf.drop (min (s.len + c.length) MERGE_WINDOW)).length
    = s.capacity
  rw [List.length_append, List.length_take, List.length_drop, mergeSI_length,
    ← hlen, hbuf]
  omega

theorem mergedState_slab_length {s : MapState} {c : List KvEntry}
    (hlen : s.len = s.slab.length) (hbuf : s.mbuf.length = s.capacity)
    (hcap : s.len + c.length ≤ s.capacity) :
    (mergedState s c).slab.length = s.len + c.length := by
  show (((mergeSI s.slab c).take (min (s.len + c.length) MERGE_WINDOW)
      ++ s.mbuf.drop (min (s.len + c.length) MERGE_WINDOW)).take
      (s.len + c.length)).length = s.len + c.length
  rw [List.length_take, List.length_append, List.length_take,
    List.length_drop, mergeSI_length, ← hlen, hbuf]
  omega

theorem bulkPut_ok_cases {s : MapState} {b : List KvEntry} {s1 : MapState}
    (h : bulkPut s b = .ok s1) :
    (b = [] ∧ s1 = s) ∨
    (b ≠ [] ∧ s.len + (compactBatch b).length ≤ s.capacity ∧
      s1 = mergedState s (compactBatch b)) := by
  simp only [bulkPut] at h
  by_cases hb : b.isEmpty
  · left
    rw [if_pos hb] at h
    cases h
    exact ⟨List.isEmpty_iff.mp hb, rfl⟩
  · right
    rw [if_neg hb] at h
    by_cases hcap : s.len + (compactBatch b).length > s.capacity
    · rw [if_pos hcap] at h
      cases h
    · rw [if_neg hcap] at h
      cases h
      refine ⟨?_, by omega, rfl⟩
      intro hnil
      rw [hnil] at hb
      exact hb rfl

theorem bulkPut_error_iff {s : MapState} {b : List KvEntry} :
    (∃ err, bulkPut s b = .error err) ↔
    (b ≠ [] ∧ s.len + (compactBatch b).length > s.capacity) := by
  constructor
  · rintro ⟨err, herr⟩
    simp only [bulkPut] at herr
    by_cases hb : b.isEmpty
    · rw [if_pos hb] at herr
      cases herr
    · rw [if_neg hb] at herr
      by_cases hcap : s.len + (compactBatch b).length > s.capacity
      · refine ⟨?_, hcap⟩
        intro hnil
        rw [hnil] at hb
        exact hb rfl
      · rw [if_neg hcap] at herr
        cases herr
  · rintro ⟨hne, hcap⟩
    refine ⟨.CapacityExceeded s.capacity (s.len + (compactBatch b).length), ?_⟩
    simp only [bulkPut]
    rw [if_neg (by simpa [List.isEmpty_iff] using hne), if_pos hcap]

theorem bulkPut_error_val {s : MapState} {b : List KvEntry} {err : GpuMapError}
    (h : bulkPut s b = .error err) :
    err = .CapacityExceeded s.capacity (s.len + (compactBatch b).length) := by
  simp only [bulkPut] at h
  by_cases hb : b.isEmpty
  · rw [if_pos hb] at h
    cases h
  · rw [if_neg hb] at h
    by_cases hcap : s.len + (compactBatch b).length > s.capacity
    · rw [if_pos hcap] at h
      cases h
      rfl
    · rw [if_neg hcap] at h
      cases h

theorem updBatch_nil (m : Nat → Option Nat) (k : Nat) :
    updBatch m [] k = m k := rfl

theorem bulkPut_preserves {s : MapState} {m : Nat → Option Nat}
    {b : List KvEntry} {s1 : MapState}
    (hInv : Inv s) (habs : ∀ k, slabVal s.slab k = m k)
    (hwf : BatchWf b)
    (hwin : s.len + (compactBatch b).length ≤ MERGE_WINDOW)
    (h : bulkPut s b = .ok s1) :
    Inv s1 ∧ ∀ k, slabVal s1.slab k = updBatch m b k := by
  obtain ⟨hsort, hlen, hcap⟩ := hInv
  rcases bulkPut_ok_cases h with ⟨rfl, rfl⟩ | ⟨hne, hcap1, rfl⟩
  · refine ⟨⟨hsort, hlen, hcap⟩, ?_⟩
    intro k
    rw [updBatch_nil]
    exact habs k
  · have hslab := mergedState_slab_of_le hlen hwin
    refine ⟨⟨?_, ?_, ?_⟩, ?_⟩
    · rw [hslab]
      exact sortedLe_mergeSI hsort (sortedLe_compactBatch hwf)
    · rw [mergedState_len, hslab, mergeSI_length, hlen]
    · rw [mergedState_len, mergedState_capacity]
      exact hcap1
    · intro k
      rw [hslab]
      show slabVal (mergeSI s.slab (compactBatch b)) k = updBatch m b k
      rw [slabVal, filterKey_mergeSI (sortedLe_compactBatch hwf) k,
        List.head?_append, filterKey_compactBatch hwf k, updBatch, lastVal]
      cases hlast : (filterKey k b).getLast? with
      | none =>
        simp only [optList, List.head?_nil, Option.map_none]
        rw [show (Option.none.or (filterKey k s.slab).head?)
            = (filterKey k s.slab).head? from rfl]
        exact habs k
      | some e =>
        simp only [optList, List.head?_cons, Option.map_some]
        rfl

/-- The length and buffer bookkeeping is preserved by every successful
bulk_put at every size: it never depends on which merged positions the
dispatch wrote. -/
theorem bulkPut_wfBuf {s : MapState} {b : List KvEntry} {s1 : MapState}
    (hw : WfBuf s) (h : bulkPut s b = .ok s1) : WfBuf s1 := by
  obtain ⟨hlen, hcap, hbuf⟩ := hw
  rcases bulkPut_ok_cases h with ⟨_, rfl⟩ | ⟨_, hcap1, rfl⟩
  · exact ⟨hlen, hcap, hbuf⟩
  · refine ⟨?_, ?_, mergedState_mbuf_length hlen hbuf hcap1⟩
    · rw [mergedState_len, mergedState_slab_length hlen hbuf hcap1]
    · rw [mergedState_len, mergedState_capacity]
      exact hcap1

theorem reachTo_wfBuf : ∀ {s : MapState} {m : Nat → Option Nat},
    ReachTo s m → WfBuf s := by
  intro s m h
  induction h with
  | new c => exact ⟨rfl, Nat.zero_le _, by simp [newMap]⟩
  | putOk hr hwf hok IH => exact bulkPut_wfBuf IH hok
  | deleteOk hr hwfk hok IH =>
    rename_i s0 m0 ks s1
    simp only [bulkDelete] at hok
    by_cases hks : ks.isEmpty
    · rw [if_pos hks] at hok
      cases hok
      exact IH
    · rw [if_neg hks] at hok
      exact bulkPut_wfBuf IH hok

theorem reachable_wfBuf {s : MapState} (h : Reachable s) : WfBuf s := by
  rcases h with ⟨m, hm⟩
  exact reachTo_wfBuf hm

theorem reachWinTo_inv : ∀ {s : MapState} {m : Nat → Option Nat},
    ReachWinTo s m → Inv s ∧ ∀ k, slabVal s.slab k = m k := by
  intro s m h
  induction h with
  | new c =>
    refine ⟨⟨?_, rfl, Nat.zero_le _⟩, fun k => rfl⟩
    exact List.Pairwise.nil
  | putOk hr hwf hwin hok IH =>
    exact bulkPut_preserves IH.1 IH.2 hwf hwin hok
  | deleteOk hr hwfk hwin hok IH =>
    rename_i s0 m0 ks s1
    simp only [bulkDelete] at hok
    by_cases hks : ks.isEmpty
    · rw [if_pos hks] at hok
      cases hok
      have hknil : ks = [] := List.isEmpty_iff.mp hks
      subst hknil
      refine ⟨IH.1, ?_⟩
      intro k
      rw [show (List.map (fun k => ({ key := k, value := TOMBSTONE } : KvEntry))
          ([] : List Nat)) = [] from rfl, updBatch_nil]
      exact IH.2 k
    · rw [if_neg hks] at hok
      refine bulkPut_preserves IH.1 IH.2 ?_ hwin hok
      intro e he
      rcases List.mem_map.mp he with ⟨kk, hkk, rfl⟩
      exact ⟨hwfk kk hkk, by norm_num [TOMBSTONE, U32LIM]⟩

theorem reachWin_inv {s : MapState} (h : ReachWin s) : Inv s := by
  rcases h with ⟨m, hm⟩
  exact (reachWinTo_inv hm).1

/-! ### Range scan helpers -/

theorem drop_takeWhile_length (p : KvEntry → Bool) (l : List KvEntry) :
    l.drop (l.takeWhile p).length = l.dropWhile p := by
  induction l with
  | nil => rfl
  | cons e t IH =>
    rw [List.takeWhile_cons, List.dropWhile_cons]
    by_cases hp : p e
    · rw [if_pos hp, if_pos hp, List.length_cons, List.drop_succ_cons, IH]
    · rw [if_neg hp, if_neg hp]
      rfl

theorem take_takeWhile_length (p : KvEntry → Bool) (l : List KvEntry) :
    l.take (l.takeWhile p).length = l.takeWhile p := by
  induction l with
  | nil => rfl
  | cons e t IH =>
    rw [List.takeWhile_cons]
    by_cases hp : p e
    · rw [if_pos hp, List.length_cons, List.take_succ_cons, IH]
    · rw [if_neg hp]
      rfl

theorem takeWhile_key_split {slab : List KvEntry} {a c : Nat} (hac : a ≤ c) :
    slab.takeWhile (fun e => decide (e.key < c))
      = slab.takeWhile (fun e => decide (e.key < a))
        ++ (slab.dropWhile (fun e => decide (e.key < a))).takeWhile
            (fun e => decide (e.key < c)) := by
  induction slab with
  | nil => rfl
  | cons e t IH =>
    by_cases he : e.key < a
    · rw [List.takeWhile_cons, List.dropWhile_cons, List.takeWhile_cons]
      rw [if_pos (by simp only [decide_eq_true_eq]; omega),
        if_pos (by simpa using he), if_pos (by simpa using he)]
      rw [List.cons_append, IH]
    · conv_rhs => rw [List.takeWhile_cons, List.dropWhile_cons]
      rw [if_neg (by simpa using he), if_neg (by simpa using he),
        List.nil_append]

theorem filter_lt_eq_takeWhile {l : List KvEntry} (hs : SortedLe l) (c : Nat) :
    l.filter (fun e => decide (e.key < c))
      = l.takeWhile (fun e => decide (e.key < c)) := by
  induction l with
  | nil => rfl
  | cons e t IH =>
    rw [SortedLe, List.pairwise_cons] at hs
    rw [List.filter_cons, List.takeWhile_cons]
    by_cases he : e.key < c
    · rw [if_pos (by simpa using he), if_pos (by simpa using he)]
      rw [IH hs.2]
    · rw [if_neg (by simpa using he), if_neg (by simpa using he)]
      rw [List.filter_eq_nil_iff]
      intro x hx
      have := hs.1 x hx
      simp only [decide_eq_true_eq]
      omega

/-! ### The claims: general theorems

`radixSort` stays irreducible here; the concrete witnesses follow in the
next section, after evaluation is re-enabled. -/

/-- C9: for the empty slice each bulk operation is a no-op that leaves the
map state unchanged: `bulk_put([])` returns `Ok(())`, `bulk_get([])`
returns the empty vector, and `bulk_delete([])` returns `Ok(())`. -/
theorem c9_empty_bulk_ops (s : MapState) :
    bulkPut s [] = .ok s ∧ bulkGet s [] = [] ∧ bulkDelete s [] = .ok s :=
  ⟨rfl, rfl, rfl⟩

/-- C2 amended: after every public call of a window-respecting history
(every merge total `slab_len + deduped_batch_len` at most 16384, the
positions one merge dispatch can write) the slab keys are non-strictly
ascending: for all `i < j < slab.len`, `slab[i].key ≤ slab[j].key`.  The
merge keeps both the batch entry and the pre-existing slab entry for an
equal key, so equal adjacent keys do occur and uniqueness fails; and past
the window the merge truncates and even non-strict sortedness is lost. -/
theorem c2_sorted_nonstrict {s : MapState} (h : ReachWin s) :
    ∀ i j : Nat, i < j → j < s.slab.length →
      (s.slab.getD i default).key ≤ (s.slab.getD j default).key := by
  intro i j hij hj
  exact sorted_key_getD (reachWin_inv h).1 (Nat.le_of_lt hij) hj

/-- C3 amended: for every reachable state `len()` returns the total number
of stored slab entries, counting tombstone-valued entries and superseded
duplicate-key entries alike (no live-count accounting exists; after
`put(k,v1); put(k,v2)` on a fresh map, `len()` is 2). -/
theorem c3_len_counts_all {s : MapState} (h : Reachable s) :
    s.lenOf = s.slab.length :=
  (reachable_wfBuf h).1

/-- The intended get semantics, delivered by the code exactly on
window-respecting histories: `get(k)` (and, entrywise, `bulk_get`) returns
`Some(v)` iff the most recent successful write for `k` stored `v` and `v`
is not the tombstone; in every other case, including a most-recent
tombstone entry (a delete, or a put of the reserved value), it returns
`None`.  Beyond the merge window this fails (see the C1 record). -/
theorem get_semantics_window {s : MapState} {m : Nat → Option Nat}
    (h : ReachWinTo s m) :
    (∀ k v : Nat, get s k = some v ↔ (m k = some v ∧ v ≠ TOMBSTONE)) ∧
    (∀ keys : List Nat, bulkGet s keys = keys.map (fun k => get s k)) := by
  obtain ⟨⟨hsort, hlen, _⟩, habs⟩ := reachWinTo_inv h
  constructor
  · intro k v
    rw [get_eq_lookupOne, lookupOne_eq hsort hlen k, ← habs k, slabVal]
    cases hh : (filterKey k s.slab).head? with
    | none => simp
    | some e =>
      rw [show Option.map (fun e => e.value) (some e) = some e.value from rfl]
      show (if (e.value == TOMBSTONE) = true then none else some e.value)
          = some v ↔ some e.value = some v ∧ v ≠ TOMBSTONE
      by_cases ht : e.value = TOMBSTONE
      · rw [if_pos (by simp [ht])]
        constructor
        · intro hcon
          cases hcon
        · rintro ⟨hv, hne⟩
          injection hv with hv2
          exact absurd (hv2 ▸ ht) hne
      · rw [if_neg (by simp [ht])]
        constructor
        · intro hsome
          injection hsome with hv2
          exact ⟨by rw [hv2], by rw [← hv2]; exact ht⟩
        · rintro ⟨hv, _⟩
          exact hv
  · intro keys
    exact bulkGet_eq_map s keys

/-- C4 amended: bulk_put fails exactly when
`slab.len + number_of_distinct_batch_keys > capacity`, regardless of which
batch keys are already present, and the reported error is
`CapacityExceeded { capacity, requested = slab.len + distinct_batch_keys }`;
an exactly-at-capacity count succeeds and one more distinct key fails. -/
theorem c4_capacity_iff {s : MapState} {b : List KvEntry} (hwf : BatchWf b) :
    bulkPut s b
        = .error (.CapacityExceeded s.capacity (s.len + distinctKeys b))
      ↔ (b ≠ [] ∧ s.len + distinctKeys b > s.capacity) := by
  rw [← length_compactBatch hwf]
  constructor
  · intro h
    exact bulkPut_error_iff.mp ⟨_, h⟩
  · intro h
    rcases bulkPut_error_iff.mpr h with ⟨err, herr⟩
    rw [bulkPut_error_val herr] at herr
    exact herr

/-- C5 amended: bulk_put performs no tombstone-value validation (deletes
are in fact implemented as puts of the reserved value): a non-empty batch
containing a `0xFFFF_FFFF`-valued entry succeeds whenever the capacity
check passes, and it grows the slab rather than leaving the state
unchanged. -/
theorem c5_no_tombstone_check {s : MapState} {b : List KvEntry}
    (hwf : BatchWf b) (hne : b ≠ [])
    (htomb : ∃ e ∈ b, e.value = TOMBSTONE)
    (hcap : s.len + distinctKeys b ≤ s.capacity) :
    ∃ s1, bulkPut s b = .ok s1 ∧
      s1.len = s.len + distinctKeys b ∧ s.len < s1.len := by
  cases hres : bulkPut s b with
  | error err =>
    exfalso
    have h2 := bulkPut_error_iff.mp ⟨err, hres⟩
    rw [length_compactBatch hwf] at h2
    omega
  | ok s1 =>
    rcases bulkPut_ok_cases hres with ⟨hnil, _⟩ | ⟨_, _, rfl⟩
    · exact absurd hnil hne
    · refine ⟨_, rfl, ?_, ?_⟩
      · show s.len + (compactBatch b).length = s.len + distinctKeys b
        rw [length_compactBatch hwf]
      · show s.len < s.len + (compactBatch b).length
        have h3 := compactBatch_ne_nil hne
        have h4 : 0 < (compactBatch b).length :=
          List.length_pos.mpr h3
        omega

/-- C6 amended: bulk_put accepts batches with duplicate keys (no
`DuplicateKey` error exists); the stable radix sort and the keep-last
dedup shader make the last occurrence win, so after a successful bulk_put
that stays within the merge window (`slab_len + deduped_batch_len ≤
16384`) the newest stored entry for each batch key is the batch's last
entry for that key. -/
theorem c6_last_write_wins {s : MapState} {b : List KvEntry} {s1 : MapState}
    {k : Nat} (hs : SortedLe s.slab) (hlen : s.len = s.slab.length)
    (hwin : s.len + (compactBatch b).length ≤ MERGE_WINDOW)
    (hwf : BatchWf b)
    (hok : bulkPut s b = .ok s1) (hk : filterKey k b ≠ []) :
    (filterKey k s1.slab).head? = (filterKey k b).getLast? := by
  rcases bulkPut_ok_cases hok with ⟨rfl, rfl⟩ | ⟨hne, _, rfl⟩
  · exact absurd rfl hk
  · rw [mergedState_slab_of_le hlen hwin]
    rw [filterKey_mergeSI (sortedLe_compactBatch hwf) k, List.head?_append,
      filterKey_compactBatch hwf k]
    cases hlast : (filterKey k b).getLast? with
    | none =>
      exact absurd (List.getLast?_eq_none_iff.mp hlast) hk
    | some e =>
      simp [optList]

/-- C7 amended: bulk_delete is implemented as a bulk_put of
tombstone-valued entries: instead of overwriting matching values in place,
it merges one tombstone entry per distinct delete key into the slab, so a
successful bulk_delete that stays within the merge window
(`slab_len + distinct_delete_keys ≤ 16384`) grows the slab length by the
number of distinct delete keys (also for keys absent from the map), after
which every deleted key reads back as None; and it can fail with
CapacityExceeded (see the counterexample). -/
theorem c7_delete_merges_tombstones {s : MapState} {ks : List Nat}
    {s1 : MapState} (hInv : Inv s) (hwf : ∀ k ∈ ks, k < U32LIM)
    (hwin : s.len + ks.dedup.length ≤ MERGE_WINDOW)
    (hok : bulkDelete s ks = .ok s1) :
    s1.len = s.len + ks.dedup.length ∧ ∀ k ∈ ks, get s1 k = none := by
  simp only [bulkDelete] at hok
  by_cases hks : ks.isEmpty
  · rw [if_pos hks] at hok
    cases hok
    have hknil : ks = [] := List.isEmpty_iff.mp hks
    subst hknil
    exact ⟨by simp, by simp⟩
  · rw [if_neg hks] at hok
    have hbwf : BatchWf (ks.map (fun k => { key := k, value := TOMBSTONE })) := by
      intro e he
      rcases List.mem_map.mp he with ⟨kk, hkk, rfl⟩
      exact ⟨hwf kk hkk, by norm_num [TOMBSTONE, U32LIM]⟩
    have hcl : (compactBatch
          (ks.map (fun k => { key := k, value := TOMBSTONE }))).length
        = ks.dedup.length := by
      rw [length_compactBatch hbwf]
      rw [distinctKeys, List.map_map]
      rw [show ((fun e : KvEntry => e.key)
            ∘ (fun k : Nat => ({ key := k, value := TOMBSTONE } : KvEntry)))
          = (fun k : Nat => k) from rfl]
      rw [List.map_id']
    obtain ⟨hInv1, habs1⟩ :=
      bulkPut_preserves hInv (fun k => rfl) hbwf (by rw [hcl]; exact hwin) hok
    constructor
    · rcases bulkPut_ok_cases hok with ⟨hnil, _⟩ | ⟨_, _, rfl⟩
      · exfalso
        rw [List.map_eq_nil_iff] at hnil
        rw [hnil] at hks
        exact hks rfl
      · show s.len + (compactBatch
            (ks.map (fun k => { key := k, value := TOMBSTONE }))).length
          = s.len + ks.dedup.length
        rw [hcl]
    · intro k hk
      have habs := habs1 k
      rw [updBatch] at habs
      have hlv : lastVal (ks.map (fun k => { key := k, value := TOMBSTONE })) k
          = some TOMBSTONE := by
        rw [lastVal]
        have hne : filterKey k (ks.map (fun k => { key := k, value := TOMBSTONE }))
            ≠ [] := by
          rw [← mem_map_key_iff_filterKey, List.map_map]
          simpa [Function.comp] using hk
        cases hgl : (filterKey k
            (ks.map (fun k => { key := k, value := TOMBSTONE }))).getLast? with
        | none => exact absurd (List.getLast?_eq_none_iff.mp hgl) hne
        | some e =>
          have hmem := List.mem_of_mem_getLast? hgl
          rw [filterKey] at hmem
          have hmem2 := (List.mem_filter.mp hmem).1
          rcases List.mem_map.mp hmem2 with ⟨kk, _, rfl⟩
          rfl
      rw [hlv] at habs
      rw [get_eq_lookupOne, lookupOne_eq hInv1.1 hInv1.2.1 k]
      rw [slabVal] at habs
      rcases Option.map_eq_some'.mp habs with ⟨e, he, hev⟩
      rw [he]
      show (if (e.value == TOMBSTONE) = true then none else some e.value) = none
      rw [if_pos (by simp [hev])]

/-- C8 amended: for a sorted slab, range returns exactly the stored entries
whose key lies in the half-open interval `[from_key, to_key)`, in slab
(ascending-key) order, with tombstone-valued entries INCLUDED — neither
the shader nor the host filters values; and for `from_key ≥ to_key` or an
empty slab the result is empty (the filter is then vacuous). -/
theorem c8_range_segment {slab : List KvEntry} (hs : SortedLe slab)
    (fromKey toKey : Nat) :
    rangeScan slab fromKey toKey
      = slab.filter
          (fun e => decide (fromKey ≤ e.key) && decide (e.key < toKey)) := by
  simp only [rangeScan]
  by_cases hguard : fromKey ≥ toKey ∨ (slab.length == 0) = true
  · rw [if_pos hguard]
    rcases hguard with hge | hlen0
    · symm
      rw [List.filter_eq_nil_iff]
      intro e _
      simp only [Bool.and_eq_true, decide_eq_true_eq, not_and]
      omega
    · have hnil : slab = [] := List.length_eq_zero.mp (by simpa using hlen0)
      subst hnil
      rfl
  · rw [if_neg hguard]
    push_neg at hguard
    have hlt : fromKey < toKey := by omega
    rw [lbSearch_eq_lbList hs fromKey, lbSearch_eq_lbList hs toKey]
    have hsplit := @takeWhile_key_split slab fromKey toKey (Nat.le_of_lt hlt)
    have hlb2 : lbList slab toKey = lbList slab fromKey
        + ((slab.dropWhile (fun e => decide (e.key < fromKey))).takeWhile
            (fun e => decide (e.key < toKey))).length := by
      rw [lbList, lbList, hsplit, List.length_append]
    have hdrop : slab.drop (lbList slab fromKey)
        = slab.dropWhile (fun e => decide (e.key < fromKey)) := by
      rw [lbList]
      exact drop_takeWhile_length _ _
    have hsd : SortedLe (slab.dropWhile (fun e => decide (e.key < fromKey))) := by
      rw [SortedLe]
      exact List.Pairwise.sublist (List.dropWhile_sublist _) hs
    have hfil : slab.filter
          (fun e => decide (fromKey ≤ e.key) && decide (e.key < toKey))
        = (slab.dropWhile (fun e => decide (e.key < fromKey))).takeWhile
            (fun e => decide (e.key < toKey)) := by
      conv_lhs =>
        rw [← List.takeWhile_append_dropWhile
          (p := fun e => decide (e.key < fromKey)) (l := slab)]
      rw [List.filter_append]
      have h1 : (slab.takeWhile (fun e => decide (e.key < fromKey))).filter
          (fun e => decide (fromKey ≤ e.key) && decide (e.key < toKey)) = [] := by
        rw [List.filter_eq_nil_iff]
        intro x hx
        have := List.mem_takeWhile_imp hx
        simp only [decide_eq_true_eq] at this
        simp only [Bool.and_eq_true, decide_eq_true_eq, not_and]
        omega
      have h2 : (slab.dropWhile (fun e => decide (e.key < fromKey))).filter
            (fun e => decide (fromKey ≤ e.key) && decide (e.key < toKey))
          = (slab.dropWhile (fun e => decide (e.key < fromKey))).filter
            (fun e => decide (e.key < toKey)) := by
        refine List.filter_congr ?_
        intro x hx
        have hge := dropWhile_key_ge hs fromKey x hx
        rw [show decide (fromKey ≤ x.key) = true from by simpa using hge,
          Bool.true_and]
      rw [h1, h2, filter_lt_eq_takeWhile hsd toKey, List.nil_append]
    by_cases hstop : lbList slab toKey ≤ lbList slab fromKey
    · rw [if_pos hstop]
      have hzero : ((slab.dropWhile (fun e => decide (e.key < fromKey))).takeWhile
          (fun e => decide (e.key < toKey))).length = 0 := by omega
      rw [hfil]
      exact (List.length_eq_zero.mp hzero).symm
    · rw [if_neg hstop]
      rw [hdrop, hfil]
      rw [show lbList slab toKey - lbList slab fromKey
          = ((slab.dropWhile (fun e => decide (e.key < fromKey))).takeWhile
              (fun e => decide (e.key < toKey))).length from by omega]
      exact take_takeWhile_length _ _

/-- The intended merge behaviour, delivered by the code exactly while the
merge total stays within the window: after a successful bulk_put the
stored slab length grows by exactly the number of distinct batch keys (the
merge keeps both the old and the new entry for an already-present key: the
per-key entry count grows by one), and the lower-bound binary search of
get lands on the newest entry, returning the batch's last-occurrence value
for every batch key (None when that value is the tombstone).  Beyond the
window this fails (see the C10 record). -/
theorem merge_keeps_both_window {s : MapState} {b : List KvEntry}
    {s1 : MapState} (hInv : Inv s) (hwf : BatchWf b)
    (hwin : s.len + (compactBatch b).length ≤ MERGE_WINDOW)
    (hok : bulkPut s b = .ok s1) :
    s1.len = s.len + distinctKeys b ∧
    ∀ k, filterKey k b ≠ [] →
      ((filterKey k s1.slab).length = (filterKey k s.slab).length + 1 ∧
        get s1 k = (match lastVal b k with
          | some v => if v = TOMBSTONE then none else some v
          | none => none)) := by
  obtain ⟨hInv1, habs1⟩ := bulkPut_preserves hInv (fun k => rfl) hwf hwin hok
  rcases bulkPut_ok_cases hok with ⟨rfl, rfl⟩ | ⟨hne, _, rfl⟩
  · refine ⟨by simp [distinctKeys], ?_⟩
    intro k hk
    exact absurd rfl hk
  · have hslab := mergedState_slab_of_le hInv.2.1 hwin
    constructor
    · show s.len + (compactBatch b).length = s.len + distinctKeys b
      rw [length_compactBatch hwf]
    · intro k hk
      constructor
      · rw [hslab]
        show (filterKey k (mergeSI s.slab (compactBatch b))).length = _
        rw [filterKey_mergeSI (sortedLe_compactBatch hwf) k,
          List.length_append, filterKey_compactBatch hwf k]
        cases hgl : (filterKey k b).getLast? with
        | none => exact absurd (List.getLast?_eq_none_iff.mp hgl) hk
        | some e =>
          show (optList (some e)).length + _ = _
          rw [show (optList (some e)).length = 1 from rfl]
          omega
      · have habs := habs1 k
        rw [updBatch] at habs
        cases hlv : lastVal b k with
        | none =>
          exfalso
          rw [lastVal, Option.map_eq_none'] at hlv
          exact hk (List.getLast?_eq_none_iff.mp hlv)
        | some v =>
          rw [hlv] at habs
          rw [get_eq_lookupOne, lookupOne_eq hInv1.1 hInv1.2.1 k]
          rw [slabVal] at habs
          rcases Option.map_eq_some'.mp habs with ⟨e, he, hev⟩
          rw [he]
          show (if (e.value == TOMBSTONE) = true then none else some e.value)
            = if v = TOMBSTONE then none else some v
          by_cases hvt : v = TOMBSTONE
          · rw [if_pos (by simp [hev, hvt]), if_pos hvt]
          · rw [if_neg (by simp [hev, hvt]), if_neg hvt, hev]

/-! ### The merge truncation past the dispatch window

`new(16385)` followed by bulk_puts totalling 16385 stored entries passes
every capacity check, but the single merge dispatch writes only the first
16384 merged positions: position 16384 keeps the old merge-buffer entry.
The batches below are already strictly sorted, so the sort and dedup
stages are provably the identity on them and no evaluation of the radix
passes is needed. -/

theorem bulkPut_eq_merged {s : MapState} {b : List KvEntry} (hne : b ≠ [])
    (hcap : s.len + (compactBatch b).length ≤ s.capacity) :
    bulkPut s b = .ok (mergedState s (compactBatch b)) := by
  simp only [bulkPut]
  rw [if_neg (by rw [List.isEmpty_iff]; exact hne)]
  rw [if_neg (by omega)]

/-- One merge past the window: with `total = MERGE_WINDOW + 1` the slab
becomes the first `MERGE_WINDOW` merged entries followed by the one entry
the old merge buffer held past the window. -/
theorem mergedState_slab_window_one {s : MapState} {c : List KvEntry}
    (hlen : s.len = s.slab.length)
    (htot : s.len + c.length = MERGE_WINDOW + 1)
    {z : KvEntry} (hdrop : s.mbuf.drop MERGE_WINDOW = [z]) :
    (mergedState s c).slab = (mergeSI s.slab c).take MERGE_WINDOW ++ [z] := by
  have hml : (mergeSI s.slab c).length = MERGE_WINDOW + 1 := by
    rw [mergeSI_length, ← hlen, htot]
  have hmin : min (s.len + c.length) MERGE_WINDOW = MERGE_WINDOW := by
    omega
  show ((mergeSI s.slab c).take (min (s.len + c.length) MERGE_WINDOW)
      ++ s.mbuf.drop (min (s.len + c.length) MERGE_WINDOW)).take
      (s.len + c.length) = (mergeSI s.slab c).take MERGE_WINDOW ++ [z]
  rw [hmin, hdrop, htot]
  refine List.take_of_length_le ?_
  rw [List.length_append, List.length_take, hml, List.length_singleton]
  omega

theorem bigBatch_mem {e : KvEntry} (he : e ∈ bigBatch) :
    e.key < 16385 ∧ e.value = 7 := by
  rw [bigBatch] at he
  rcases List.mem_map.mp he with ⟨k, hk, rfl⟩
  exact ⟨List.mem_range.mp hk, rfl⟩

theorem sortedLt_bigBatch : SortedLt bigBatch := by
  rw [bigBatch, SortedLt, List.pairwise_map]
  exact List.pairwise_lt_range 16385

theorem batchWf_bigBatch : BatchWf bigBatch := by
  intro e he
  obtain ⟨hk, hv⟩ := bigBatch_mem he
  rw [hv]
  simp only [U32LIM]
  omega

theorem length_bigBatch : bigBatch.length = 16385 := by
  rw [bigBatch, List.length_map, List.length_range]

theorem bigBatch_ne_nil : bigBatch ≠ [] := by
  intro h
  have h2 := length_bigBatch
  rw [h] at h2
  simp at h2

theorem compactBatch_bigBatch : compactBatch bigBatch = bigBatch :=
  compactBatch_of_sortedLt batchWf_bigBatch sortedLt_bigBatch

theorem bulkPut_bigBatch :
    bulkPut (newMap 16385) bigBatch
      = .ok (mergedState (newMap 16385) bigBatch) := by
  have h := bulkPut_eq_merged bigBatch_ne_nil
    (show (newMap 16385).len + (compactBatch bigBatch).length
        ≤ (newMap 16385).capacity from by
      rw [compactBatch_bigBatch, length_bigBatch]
      show (0 : Nat) + 16385 ≤ 16385
      omega)
  rw [compactBatch_bigBatch] at h
  exact h

theorem bigBatch_slab :
    (mergedState (newMap 16385) bigBatch).slab
      = (List.range 16384).map (fun k => ({ key := k, value := 7 } : KvEntry))
        ++ [{ key := 0, value := 0 }] := by
  have htot : (newMap 16385).len + bigBatch.length = MERGE_WINDOW + 1 := by
    rw [length_bigBatch]
    show (0 : Nat) + 16385 = 16384 + 1
    omega
  have hdrop : (newMap 16385).mbuf.drop MERGE_WINDOW
      = [({ key := 0, value := 0 } : KvEntry)] := by
    show (List.replicate 16385 ({ key := 0, value := 0 } : KvEntry)).drop 16384
      = [{ key := 0, value := 0 }]
    rw [List.drop_replicate, show (16385 - 16384 : Nat) = 1 from by norm_num,
      List.replicate_one]
  rw [mergedState_slab_window_one rfl htot hdrop]
  rw [show (newMap 16385).slab = ([] : List KvEntry) from rfl, mergeSI_nil_left]
  rw [show MERGE_WINDOW = 16384 from rfl]
  rw [bigBatch, ← List.map_take, List.take_range,
    show min 16384 16385 = 16384 from by omega]

theorem bigBatch_slab_keys {e : KvEntry}
    (he : e ∈ (mergedState (newMap 16385) bigBatch).slab) : e.key < 16384 := by
  rw [bigBatch_slab] at he
  rcases List.mem_append.mp he with h1 | h1
  · rcases List.mem_map.mp h1 with ⟨k, hk, rfl⟩
    exact List.mem_range.mp hk
  · rw [List.mem_singleton] at h1
    rw [h1]
    decide

theorem batch10_mem {e : KvEntry} (he : e ∈ batch10) :
    1 ≤ e.key ∧ e.key < 16385 ∧ e.value = 9 := by
  rw [batch10] at he
  rcases List.mem_map.mp he with ⟨k, hk, rfl⟩
  have hk2 := List.mem_range.mp hk
  show 1 ≤ k + 1 ∧ k + 1 < 16385 ∧ (9 : Nat) = 9
  exact ⟨by omega, by omega, rfl⟩

theorem sortedLt_batch10 : SortedLt batch10 := by
  rw [batch10, SortedLt, List.pairwise_map]
  exact (List.pairwise_lt_range 16384).imp (fun h => Nat.succ_lt_succ h)

theorem batchWf_batch10 : BatchWf batch10 := by
  intro e he
  obtain ⟨h1, h2, h3⟩ := batch10_mem he
  rw [h3]
  simp only [U32LIM]
  omega

theorem length_batch10 : batch10.length = 16384 := by
  rw [batch10, List.length_map, List.length_range]

theorem batch10_ne_nil : batch10 ≠ [] := by
  intro h
  have h2 := length_batch10
  rw [h] at h2
  simp at h2

theorem compactBatch_batch10 : compactBatch batch10 = batch10 :=
  compactBatch_of_sortedLt batchWf_batch10 sortedLt_batch10

theorem compactBatch_seed :
    compactBatch [({ key := 0, value := 1 } : KvEntry)]
      = [{ key := 0, value := 1 }] := by
  refine compactBatch_of_sortedLt ?_ ?_
  · intro e he
    rw [List.mem_singleton] at he
    rw [he]
    exact ⟨by norm_num [U32LIM], by norm_num [U32LIM]⟩
  · rw [SortedLt]
    exact List.pairwise_singleton _ _

theorem bulkPut_seed :
    bulkPut (newMap 16385) [({ key := 0, value := 1 } : KvEntry)]
      = .ok (mergedState (newMap 16385) [{ key := 0, value := 1 }]) := by
  have h := bulkPut_eq_merged
    (show [({ key := 0, value := 1 } : KvEntry)] ≠ [] from by simp)
    (show (newMap 16385).len
          + (compactBatch [({ key := 0, value := 1 } : KvEntry)]).length
        ≤ (newMap 16385).capacity from by
      rw [compactBatch_seed]
      show (0 : Nat) + 1 ≤ 16385
      omega)
  rw [compactBatch_seed] at h
  exact h

theorem seed_slab :
    (mergedState (newMap 16385) [({ key := 0, value := 1 } : KvEntry)]).slab
      = [{ key := 0, value := 1 }] := by
  rw [mergedState_slab_of_le rfl (by decide)]
  rw [show (newMap 16385).slab = ([] : List KvEntry) from rfl, mergeSI_nil_left]

theorem seed_mbuf :
    (mergedState (newMap 16385) [({ key := 0, value := 1 } : KvEntry)]).mbuf
      = { key := 0, value := 1 }
        :: List.replicate 16384 { key := 0, value := 0 } := by
  show (mergeSI (newMap 16385).slab [({ key := 0, value := 1 } : KvEntry)]).take
      (min ((newMap 16385).len
        + [({ key := 0, value := 1 } : KvEntry)].length) MERGE_WINDOW)
    ++ (newMap 16385).mbuf.drop
      (min ((newMap 16385).len
        + [({ key := 0, value := 1 } : KvEntry)].length) MERGE_WINDOW)
    = { key := 0, value := 1 } :: List.replicate 16384 { key := 0, value := 0 }
  rw [show (newMap 16385).slab = ([] : List KvEntry) from rfl, mergeSI_nil_left]
  rw [show min ((newMap 16385).len
      + [({ key := 0, value := 1 } : KvEntry)].length) MERGE_WINDOW = 1 from
    by decide]
  rw [show (newMap 16385).mbuf
      = List.replicate 16385 ({ key := 0, value := 0 } : KvEntry) from rfl]
  rw [List.drop_replicate, show (16385 - 1 : Nat) = 16384 from by norm_num]
  rfl

theorem seed_merge :
    mergeSI (mergedState (newMap 16385)
        [({ key := 0, value := 1 } : KvEntry)]).slab batch10
      = { key := 0, value := 1 } :: batch10 := by
  rw [seed_slab]
  refine mergeSI_singleton_lt ?_
  intro e he
  obtain ⟨h1, _, _⟩ := batch10_mem he
  show (0 : Nat) < e.key
  omega

theorem batch10_slab :
    (mergedState (mergedState (newMap 16385)
        [({ key := 0, value := 1 } : KvEntry)]) batch10).slab
      = { key := 0, value := 1 }
        :: ((List.range 16383).map
              (fun k => ({ key := k + 1, value := 9 } : KvEntry))
          ++ [{ key := 0, value := 0 }]) := by
  have hlen : (mergedState (newMap 16385)
      [({ key := 0, value := 1 } : KvEntry)]).len
      = (mergedState (newMap 16385)
        [({ key := 0, value := 1 } : KvEntry)]).slab.length := by
    rw [seed_slab]
    exact Nat.zero_add _
  have htot : (mergedState (newMap 16385)
      [({ key := 0, value := 1 } : KvEntry)]).len + batch10.length
      = MERGE_WINDOW + 1 := by
    rw [length_batch10]
    show (0 : Nat) + 1 + 16384 = 16384 + 1
    omega
  have hdrop : (mergedState (newMap 16385)
      [({ key := 0, value := 1 } : KvEntry)]).mbuf.drop MERGE_WINDOW
      = [({ key := 0, value := 0 } : KvEntry)] := by
    rw [seed_mbuf, show MERGE_WINDOW = 16383 + 1 from by decide,
      List.drop_succ_cons, List.drop_replicate,
      show (16384 - 16383 : Nat) = 1 from by norm_num, List.replicate_one]
  rw [mergedState_slab_window_one hlen htot hdrop, seed_merge]
  rw [show MERGE_WINDOW = 16383 + 1 from by decide, List.take_succ_cons]
  rw [show batch10.take 16383 = (List.range 16383).map
      (fun k => ({ key := k + 1, value := 9 } : KvEntry)) from by
    rw [batch10, ← List.map_take, List.take_range,
      show min 16383 16384 = 16383 from by omega]]
  rw [List.cons_append]

theorem batch10_slab_keys {e : KvEntry}
    (he : e ∈ (mergedState (mergedState (newMap 16385)
      [({ key := 0, value := 1 } : KvEntry)]) batch10).slab) :
    e.key < 16384 := by
  rw [batch10_slab] at he
  rcases List.mem_cons.mp he with rfl | h1
  · decide
  rcases List.mem_append.mp h1 with h2 | h2
  · rcases List.mem_map.mp h2 with ⟨k, hk, rfl⟩
    have := List.mem_range.mp hk
    show k + 1 < 16384
    omega
  · rw [List.mem_singleton] at h2
    rw [h2]
    decide

/-- C1 (code bug): the spec's get-semantics — `get(k)` returns the value
of the most recent successful put for `k`, `None` after a delete or for an
absent key — is the evident intent of the code (every other stage scales
its dispatch with the data length, `BULK_MERGE_WGSL` itself guards
`chunk_index >= chunk_count`, and the semantics is delivered verbatim
while merges stay within the window, see `get_semantics_window`), but
`BulkPutOp::execute` dispatches the merge with one 64-thread workgroup:
at `new(16385)` followed by a bulk_put of the 16385 distinct keys
`bigBatch` — a reachable history whose capacity check passes — merged
position 16384 is never written.  The slab keeps the zero-initialized
merge-buffer entry `(0,0)` there, the entry `(16384, 7)` of the batch is
stored nowhere, and `get 16384` returns `none` although the most recent
successful write for key 16384 stored the non-tombstone value 7. -/
theorem c1_truncated_get :
    ∃ s1, bulkPut (newMap 16385) bigBatch = .ok s1 ∧
      ReachTo s1 (updBatch (fun _ => none) bigBatch) ∧
      updBatch (fun _ => none) bigBatch 16384 = some 7 ∧
      s1.len = 16385 ∧
      s1.slab.getD 16384 default = { key := 0, value := 0 } ∧
      ({ key := 16384, value := 7 } : KvEntry) ∉ s1.slab ∧
      get s1 16384 = none := by
  refine ⟨mergedState (newMap 16385) bigBatch, bulkPut_bigBatch,
    ?_, ?_, ?_, ?_, ?_, ?_⟩
  · exact @ReachTo.putOk (newMap 16385) (fun _ => none) bigBatch
      (mergedState (newMap 16385) bigBatch) (ReachTo.new 16385)
      batchWf_bigBatch bulkPut_bigBatch
  · have hmem : ({ key := 16384, value := 7 } : KvEntry) ∈ bigBatch := by
      rw [bigBatch]
      exact List.mem_map.mpr ⟨16384, List.mem_range.mpr (by omega), rfl⟩
    have hfk := filterKey_of_sortedLt sortedLt_bigBatch hmem
    rw [show ({ key := 16384, value := 7 } : KvEntry).key = 16384 from rfl]
      at hfk
    simp only [updBatch, lastVal]
    rw [hfk]
    rfl
  · rw [mergedState_len, length_bigBatch]
    show (0 : Nat) + 16385 = 16385
    omega
  · rw [bigBatch_slab]
    have hl : ((List.range 16384).map
        (fun k => ({ key := k, value := 7 } : KvEntry))).length = 16384 := by
      rw [List.length_map, List.length_range]
    nth_rewrite 2 [show (16384 : Nat)
      = ((List.range 16384).map
          (fun k => ({ key := k, value := 7 } : KvEntry))).length from hl.symm]
    exact getD_append_length _ _ _ _
  · intro hmem
    exact absurd (bigBatch_slab_keys hmem) (by decide)
  · refine get_none_of_keys_lt ?_ (fun e he => bigBatch_slab_keys he)
    rw [mergedState_len, length_bigBatch, bigBatch_slab,
      List.length_append, List.length_map, List.length_range,
      List.length_singleton]
    show (0 : Nat) + 16385 = 16384 + 1
    omega

/-- C10 (code bug): the claimed merge behaviour — both the old and the new
entry for an already-present key are kept, with the per-key entry count
growing by one and get landing on the newest entry — is the evident
intent (the shader guards `chunk_index >= chunk_count`, and the behaviour
is delivered verbatim within the window, see `merge_keeps_both_window`),
but the single 64-thread merge dispatch writes only the first 16384 merged
positions: after `new(16385); put(0,1)` followed by a bulk_put of the
16384 distinct keys `batch10`, the host `len` still grows by the distinct
key count, yet the batch entry `(16384, 9)` is lost — no stored entry
carries key 16384 and `get 16384` returns `none` where the claim demands
the per-key count 1 and `Some(9)`. -/
theorem c10_truncated_merge :
    ∃ s0 s1,
      bulkPut (newMap 16385) [({ key := 0, value := 1 } : KvEntry)] = .ok s0 ∧
      bulkPut s0 batch10 = .ok s1 ∧
      distinctKeys batch10 = 16384 ∧
      s1.len = s0.len + 16384 ∧
      filterKey 16384 batch10 ≠ [] ∧
      filterKey 16384 s1.slab = [] ∧
      get s1 16384 = none := by
  refine ⟨mergedState (newMap 16385) [{ key := 0, value := 1 }],
    mergedState (mergedState (newMap 16385) [{ key := 0, value := 1 }]) batch10,
    bulkPut_seed, ?_, ?_, ?_, ?_, ?_, ?_⟩
  · have h := bulkPut_eq_merged batch10_ne_nil
      (show (mergedState (newMap 16385)
            [({ key := 0, value := 1 } : KvEntry)]).len
          + (compactBatch batch10).length
          ≤ (mergedState (newMap 16385)
            [({ key := 0, value := 1 } : KvEntry)]).capacity from by
        rw [compactBatch_batch10, length_batch10]
        show (0 : Nat) + 1 + 16384 ≤ 16385
        omega)
    rw [compactBatch_batch10] at h
    exact h
  · rw [distinctKeys, batch10, List.map_map]
    rw [show ((fun e : KvEntry => e.key)
          ∘ (fun k : Nat => ({ key := k + 1, value := 9 } : KvEntry)))
        = (fun k : Nat => k + 1) from rfl]
    rw [List.dedup_eq_self.mpr ?_]
    · rw [List.length_map, List.length_range]
    · refine List.Nodup.map ?_ (List.nodup_range 16384)
      intro a b h
      have h2 : a + 1 = b + 1 := h
      omega
  · rw [mergedState_len, length_batch10]
  · have hm9 : ({ key := 16384, value := 9 } : KvEntry) ∈ batch10 := by
      rw [batch10]
      exact List.mem_map.mpr ⟨16383, List.mem_range.mpr (by omega), rfl⟩
    have hk9 : (16384 : Nat) ∈ batch10.map (fun e => e.key) :=
      List.mem_map.mpr ⟨_, hm9, rfl⟩
    exact (mem_map_key_iff_filterKey _ _).mp hk9
  · rw [filterKey, List.filter_eq_nil_iff]
    intro x hx
    have := batch10_slab_keys hx
    simp only [beq_iff_eq]
    omega
  · refine get_none_of_keys_lt ?_ (fun e he => batch10_slab_keys he)
    rw [batch10_slab]
    show (mergedState (newMap 16385)
        [({ key := 0, value := 1 } : KvEntry)]).len + batch10.length = _
    rw [length_batch10, List.length_cons, List.length_append,
      List.length_map, List.length_range, List.length_singleton]
    show (0 : Nat) + 1 + 16384 = 16383 + 1 + 1
    omega

/-! ### The claims: concrete counterexamples and witnesses

Evaluation of the radix passes is re-enabled so that `decide` can run the
pipeline on concrete batches. -/

set_option allowUnsafeReducibility true in
attribute [semireducible] radixSort

/-- The state reached by `new(8); put(1,10); put(1,20)`, together with its
abstract history.  Several witnesses below revisit this state. -/
theorem reach_dup_state :
    ReachTo ⟨[⟨1,20⟩,⟨1,10⟩],2,8, ⟨1,20⟩ :: ⟨1,10⟩ :: List.replicate 6 ⟨0,0⟩⟩
      (updBatch (updBatch (fun _ => none) [⟨1,10⟩]) [⟨1,20⟩]) :=
  @ReachTo.putOk ⟨[⟨1,10⟩],1,8, ⟨1,10⟩ :: List.replicate 7 ⟨0,0⟩⟩
    (updBatch (fun _ => none) [⟨1,10⟩])
    [⟨1,20⟩] ⟨[⟨1,20⟩,⟨1,10⟩],2,8, ⟨1,20⟩ :: ⟨1,10⟩ :: List.replicate 6 ⟨0,0⟩⟩
    (@ReachTo.putOk (newMap 8) (fun _ => none) [⟨1,10⟩]
      ⟨[⟨1,10⟩],1,8, ⟨1,10⟩ :: List.replicate 7 ⟨0,0⟩⟩
      (ReachTo.new 8) (by decide) (by decide))
    (by decide) (by decide)

/-- The dup state is also reached by a window-respecting history: both
merges stay far below the 16384-entry window. -/
theorem reachWin_dup_state :
    ReachWinTo ⟨[⟨1,20⟩,⟨1,10⟩],2,8, ⟨1,20⟩ :: ⟨1,10⟩ :: List.replicate 6 ⟨0,0⟩⟩
      (updBatch (updBatch (fun _ => none) [⟨1,10⟩]) [⟨1,20⟩]) :=
  @ReachWinTo.putOk ⟨[⟨1,10⟩],1,8, ⟨1,10⟩ :: List.replicate 7 ⟨0,0⟩⟩
    (updBatch (fun _ => none) [⟨1,10⟩])
    [⟨1,20⟩] ⟨[⟨1,20⟩,⟨1,10⟩],2,8, ⟨1,20⟩ :: ⟨1,10⟩ :: List.replicate 6 ⟨0,0⟩⟩
    (@ReachWinTo.putOk (newMap 8) (fun _ => none) [⟨1,10⟩]
      ⟨[⟨1,10⟩],1,8, ⟨1,10⟩ :: List.replicate 7 ⟨0,0⟩⟩
      (ReachWinTo.new 8) (by decide) (by decide) (by decide))
    (by decide) (by decide) (by decide)

/-- The state reached by `new(8); put(1,10); delete(1)`: the delete merges
a tombstone entry in front of the old entry instead of marking in place. -/
theorem reach_del_state :
    ReachTo ⟨[⟨1,TOMBSTONE⟩,⟨1,10⟩],2,8,
        ⟨1,TOMBSTONE⟩ :: ⟨1,10⟩ :: List.replicate 6 ⟨0,0⟩⟩
      (updBatch (updBatch (fun _ => none) [⟨1,10⟩])
        (([1] : List Nat).map (fun k => { key := k, value := TOMBSTONE }))) :=
  @ReachTo.deleteOk ⟨[⟨1,10⟩],1,8, ⟨1,10⟩ :: List.replicate 7 ⟨0,0⟩⟩
    (updBatch (fun _ => none) [⟨1,10⟩])
    [1] ⟨[⟨1,TOMBSTONE⟩,⟨1,10⟩],2,8,
        ⟨1,TOMBSTONE⟩ :: ⟨1,10⟩ :: List.replicate 6 ⟨0,0⟩⟩
    (@ReachTo.putOk (newMap 8) (fun _ => none) [⟨1,10⟩]
      ⟨[⟨1,10⟩],1,8, ⟨1,10⟩ :: List.replicate 7 ⟨0,0⟩⟩
      (ReachTo.new 8) (by decide) (by decide))
    (by decide) (by decide)

/-- C2 is false on the code: after `put(1,10); put(1,20)` on a fresh map of
capacity 8 the slab is `[(1,20), (1,10)]`, a reachable state whose entries
at indices `0 < 1 < len` share the key `1`, violating strict ascent. -/
theorem c2_counterexample :
    Reachable ⟨[⟨1,20⟩,⟨1,10⟩],2,8, ⟨1,20⟩ :: ⟨1,10⟩ :: List.replicate 6 ⟨0,0⟩⟩ ∧
    (⟨[⟨1,20⟩,⟨1,10⟩],2,8,
        ⟨1,20⟩ :: ⟨1,10⟩ :: List.replicate 6 ⟨0,0⟩⟩ : MapState).slab.length = 2 ∧
    ¬ (((⟨[⟨1,20⟩,⟨1,10⟩],2,8,
          ⟨1,20⟩ :: ⟨1,10⟩ :: List.replicate 6 ⟨0,0⟩⟩ : MapState).slab.getD 0
            default).key
        < ((⟨[⟨1,20⟩,⟨1,10⟩],2,8,
          ⟨1,20⟩ :: ⟨1,10⟩ :: List.replicate 6 ⟨0,0⟩⟩ : MapState).slab.getD 1
            default).key) := by
  exact ⟨⟨_, reach_dup_state⟩, by decide, by decide⟩

/-- Witness for the amended C2 at the two-entry state of a
window-respecting history. -/
theorem c2_witness :
    ReachWin ⟨[⟨1,20⟩,⟨1,10⟩],2,8, ⟨1,20⟩ :: ⟨1,10⟩ :: List.replicate 6 ⟨0,0⟩⟩ ∧
    ((⟨[⟨1,20⟩,⟨1,10⟩],2,8,
        ⟨1,20⟩ :: ⟨1,10⟩ :: List.replicate 6 ⟨0,0⟩⟩ : MapState).slab.getD 0
          default).key
      ≤ ((⟨[⟨1,20⟩,⟨1,10⟩],2,8,
        ⟨1,20⟩ :: ⟨1,10⟩ :: List.replicate 6 ⟨0,0⟩⟩ : MapState).slab.getD 1
          default).key := by
  have hreach : ReachWin (⟨[⟨1,20⟩,⟨1,10⟩],2,8,
      ⟨1,20⟩ :: ⟨1,10⟩ :: List.replicate 6 ⟨0,0⟩⟩ : MapState) :=
    ⟨_, reachWin_dup_state⟩
  exact ⟨hreach, c2_sorted_nonstrict hreach 0 1 (by decide) (by decide)⟩

/-- C3 is false on the code: `len()` returns the raw slab length, not the
live count.  After `put(1,10); delete(1)` the slab holds the tombstone and
the old entry, so `len()` is 2 while only one stored entry is
non-tombstone; and after `put(1,10); put(1,20)` on a fresh map `len()` is
2 where the claim demands 1. -/
theorem c3_counterexample :
    Reachable ⟨[⟨1,TOMBSTONE⟩,⟨1,10⟩],2,8,
        ⟨1,TOMBSTONE⟩ :: ⟨1,10⟩ :: List.replicate 6 ⟨0,0⟩⟩ ∧
    (⟨[⟨1,TOMBSTONE⟩,⟨1,10⟩],2,8,
        ⟨1,TOMBSTONE⟩ :: ⟨1,10⟩ :: List.replicate 6 ⟨0,0⟩⟩ : MapState).lenOf
      = 2 ∧
    liveCount (⟨[⟨1,TOMBSTONE⟩,⟨1,10⟩],2,8,
        ⟨1,TOMBSTONE⟩ :: ⟨1,10⟩ :: List.replicate 6 ⟨0,0⟩⟩ : MapState).slab
      = 1 ∧
    (⟨[⟨1,TOMBSTONE⟩,⟨1,10⟩],2,8,
        ⟨1,TOMBSTONE⟩ :: ⟨1,10⟩ :: List.replicate 6 ⟨0,0⟩⟩ : MapState).lenOf
      ≠ liveCount (⟨[⟨1,TOMBSTONE⟩,⟨1,10⟩],2,8,
        ⟨1,TOMBSTONE⟩ :: ⟨1,10⟩ :: List.replicate 6 ⟨0,0⟩⟩ : MapState).slab ∧
    Reachable ⟨[⟨1,20⟩,⟨1,10⟩],2,8,
        ⟨1,20⟩ :: ⟨1,10⟩ :: List.replicate 6 ⟨0,0⟩⟩ ∧
    (⟨[⟨1,20⟩,⟨1,10⟩],2,8,
        ⟨1,20⟩ :: ⟨1,10⟩ :: List.replicate 6 ⟨0,0⟩⟩ : MapState).lenOf = 2 := by
  exact ⟨⟨_, reach_del_state⟩, by decide, by decide, by decide,
    ⟨_, reach_dup_state⟩, by decide⟩

/-- Witness for the amended C3 at the reachable two-entry state. -/
theorem c3_witness :
    Reachable ⟨[⟨1,20⟩,⟨1,10⟩],2,8,
        ⟨1,20⟩ :: ⟨1,10⟩ :: List.replicate 6 ⟨0,0⟩⟩ ∧
    (⟨[⟨1,20⟩,⟨1,10⟩],2,8,
        ⟨1,20⟩ :: ⟨1,10⟩ :: List.replicate 6 ⟨0,0⟩⟩ : MapState).lenOf
      = (⟨[⟨1,20⟩,⟨1,10⟩],2,8,
        ⟨1,20⟩ :: ⟨1,10⟩ :: List.replicate 6 ⟨0,0⟩⟩ : MapState).slab.length := by
  have hreach : Reachable (⟨[⟨1,20⟩,⟨1,10⟩],2,8,
      ⟨1,20⟩ :: ⟨1,10⟩ :: List.replicate 6 ⟨0,0⟩⟩ : MapState) :=
    ⟨_, reach_dup_state⟩
  exact ⟨hreach, c3_len_counts_all hreach⟩

/-- C4 is false on the code: the device capacity check compares
`slab.len + deduped_batch_len` against the capacity without subtracting
the keys already present.  On a full capacity-2 map reached by
`put([(1,10),(2,20)])`, the batch `[(1,11)]` only updates the existing
key 1 (`net_new_unique = 0`), yet bulk_put fails with
`CapacityExceeded { capacity: 2, requested: 3 }`. -/
theorem c4_counterexample :
    Reachable ⟨[⟨1,10⟩,⟨2,20⟩],2,2,[⟨1,10⟩,⟨2,20⟩]⟩ ∧
    (1 : Nat) ∈ (⟨[⟨1,10⟩,⟨2,20⟩],2,2,
        [⟨1,10⟩,⟨2,20⟩]⟩ : MapState).slab.map (fun e => e.key) ∧
    bulkPut ⟨[⟨1,10⟩,⟨2,20⟩],2,2,[⟨1,10⟩,⟨2,20⟩]⟩ [⟨1,11⟩]
      = .error (.CapacityExceeded 2 3) := by
  refine ⟨?_, by decide, by decide⟩
  exact ⟨_, @ReachTo.putOk (newMap 2) (fun _ => none) [⟨1,10⟩,⟨2,20⟩]
    ⟨[⟨1,10⟩,⟨2,20⟩],2,2,[⟨1,10⟩,⟨2,20⟩]⟩ (ReachTo.new 2)
    (by decide) (by decide)⟩

/-- Witness for the amended C4: the update-only batch on the full
capacity-2 map fails although it adds no new key. -/
theorem c4_witness :
    BatchWf [⟨1,11⟩] ∧
    (bulkPut ⟨[⟨1,10⟩,⟨2,20⟩],2,2,[⟨1,10⟩,⟨2,20⟩]⟩ [⟨1,11⟩]
        = .error (.CapacityExceeded 2 (2 + distinctKeys [⟨1,11⟩]))
      ↔ (([⟨1,11⟩] : List KvEntry) ≠ [] ∧ 2 + distinctKeys [⟨1,11⟩] > 2)) := by
  exact ⟨by decide, c4_capacity_iff (by decide)⟩

/-- C5 is false on the code: `GpuMapError` has no `TombstoneReserved`
variant and `BulkPutOp::execute` performs no value validation.  A batch
whose entry stores `0xFFFF_FFFF` succeeds and changes the map state (the
entry is stored and acts as a tombstone). -/
theorem c5_counterexample :
    bulkPut (newMap 4) [⟨5, TOMBSTONE⟩]
      = .ok ⟨[⟨5,TOMBSTONE⟩],1,4, ⟨5,TOMBSTONE⟩ :: List.replicate 3 ⟨0,0⟩⟩ ∧
    (⟨[⟨5,TOMBSTONE⟩],1,4,
        ⟨5,TOMBSTONE⟩ :: List.replicate 3 ⟨0,0⟩⟩ : MapState) ≠ newMap 4 ∧
    get ⟨[⟨5,TOMBSTONE⟩],1,4, ⟨5,TOMBSTONE⟩ :: List.replicate 3 ⟨0,0⟩⟩ 5
      = none := by
  exact ⟨by decide, by decide, by decide⟩

/-- Witness for the amended C5: a tombstone-valued put on a fresh map. -/
theorem c5_witness :
    BatchWf [⟨5, TOMBSTONE⟩] ∧ ([⟨5, TOMBSTONE⟩] : List KvEntry) ≠ [] ∧
    (∃ e ∈ ([⟨5, TOMBSTONE⟩] : List KvEntry), e.value = TOMBSTONE) ∧
    (newMap 4).len + distinctKeys [⟨5, TOMBSTONE⟩] ≤ (newMap 4).capacity ∧
    (∃ s1, bulkPut (newMap 4) [⟨5, TOMBSTONE⟩] = .ok s1 ∧
      s1.len = (newMap 4).len + distinctKeys [⟨5, TOMBSTONE⟩] ∧
      (newMap 4).len < s1.len) := by
  refine ⟨by decide, by decide, ⟨⟨5, TOMBSTONE⟩, by decide, rfl⟩, by decide, ?_⟩
  exact c5_no_tombstone_check (by decide) (by decide)
    ⟨⟨5, TOMBSTONE⟩, by decide, rfl⟩ (by decide)

/-- C6 is false on the code: `GpuMapError` has no `DuplicateKey` variant
and the dedup shader applies last-write-wins instead.  The duplicate-key
batch `[(1,10),(1,20)]` succeeds on a fresh map, the state changes, and
`get(1)` returns the later value 20. -/
theorem c6_counterexample :
    bulkPut (newMap 8) [⟨1,10⟩,⟨1,20⟩]
      = .ok ⟨[⟨1,20⟩],1,8, ⟨1,20⟩ :: List.replicate 7 ⟨0,0⟩⟩ ∧
    (⟨[⟨1,20⟩],1,8,
        ⟨1,20⟩ :: List.replicate 7 ⟨0,0⟩⟩ : MapState) ≠ newMap 8 ∧
    get ⟨[⟨1,20⟩],1,8, ⟨1,20⟩ :: List.replicate 7 ⟨0,0⟩⟩ 1 = some 20 := by
  exact ⟨by decide, by decide, by decide⟩

/-- Witness for the amended C6 with the duplicate-key batch
`[(1,10),(1,20)]` on a fresh map (well within the merge window). -/
theorem c6_witness :
    SortedLe (newMap 8).slab ∧ BatchWf [⟨1,10⟩,⟨1,20⟩] ∧
    (newMap 8).len + (compactBatch [⟨1,10⟩,⟨1,20⟩]).length ≤ MERGE_WINDOW ∧
    bulkPut (newMap 8) [⟨1,10⟩,⟨1,20⟩]
      = .ok ⟨[⟨1,20⟩],1,8, ⟨1,20⟩ :: List.replicate 7 ⟨0,0⟩⟩ ∧
    filterKey 1 [⟨1,10⟩,⟨1,20⟩] ≠ [] ∧
    (filterKey 1 (⟨[⟨1,20⟩],1,8,
        ⟨1,20⟩ :: List.replicate 7 ⟨0,0⟩⟩ : MapState).slab).head?
      = (filterKey 1 [⟨1,10⟩,⟨1,20⟩]).getLast? := by
  refine ⟨by decide, by decide, by decide, by decide, by decide, ?_⟩
  exact @c6_last_write_wins (newMap 8) [⟨1,10⟩,⟨1,20⟩]
    ⟨[⟨1,20⟩],1,8, ⟨1,20⟩ :: List.replicate 7 ⟨0,0⟩⟩ 1
    (by decide) (by decide) (by decide) (by decide) (by decide) (by decide)

/-- C7 is false on the code: `BulkDeleteOp` maps keys to tombstone entries
and runs the bulk-put pipeline.  Deleting the absent key 5 on a fresh map
adds an entry (slab length 0 becomes 1), and deleting on a full
capacity-1 map fails with `CapacityExceeded` although the claim says
bulk_delete never errors and never changes the slab length. -/
theorem c7_counterexample :
    bulkDelete (newMap 4) [5]
      = .ok ⟨[⟨5,TOMBSTONE⟩],1,4, ⟨5,TOMBSTONE⟩ :: List.replicate 3 ⟨0,0⟩⟩ ∧
    (newMap 4).slab.length = 0 ∧
    (⟨[⟨5,TOMBSTONE⟩],1,4,
        ⟨5,TOMBSTONE⟩ :: List.replicate 3 ⟨0,0⟩⟩ : MapState).slab.length = 1 ∧
    Reachable ⟨[⟨1,10⟩],1,1,[⟨1,10⟩]⟩ ∧
    bulkDelete ⟨[⟨1,10⟩],1,1,[⟨1,10⟩]⟩ [2]
      = .error (.CapacityExceeded 1 2) := by
  refine ⟨by decide, by decide, by decide, ?_, by decide⟩
  exact ⟨_, @ReachTo.putOk (newMap 1) (fun _ => none) [⟨1,10⟩]
    ⟨[⟨1,10⟩],1,1,[⟨1,10⟩]⟩ (ReachTo.new 1) (by decide) (by decide)⟩

/-- Witness for the amended C7: deleting `[5, 99]` (one present, one
absent key) on a one-entry map grows the slab by two tombstones and both
keys read back as None. -/
theorem c7_witness :
    Inv ⟨[⟨5,50⟩],1,8, ⟨5,50⟩ :: List.replicate 7 ⟨0,0⟩⟩ ∧
    (∀ k ∈ ([5,99] : List Nat), k < U32LIM) ∧
    (⟨[⟨5,50⟩],1,8, ⟨5,50⟩ :: List.replicate 7 ⟨0,0⟩⟩ : MapState).len
        + ([5,99] : List Nat).dedup.length ≤ MERGE_WINDOW ∧
    bulkDelete ⟨[⟨5,50⟩],1,8, ⟨5,50⟩ :: List.replicate 7 ⟨0,0⟩⟩ [5,99]
      = .ok ⟨[⟨5,TOMBSTONE⟩,⟨5,50⟩,⟨99,TOMBSTONE⟩],3,8,
          ⟨5,TOMBSTONE⟩ :: ⟨5,50⟩ :: ⟨99,TOMBSTONE⟩
            :: List.replicate 5 ⟨0,0⟩⟩ ∧
    ((⟨[⟨5,TOMBSTONE⟩,⟨5,50⟩,⟨99,TOMBSTONE⟩],3,8,
          ⟨5,TOMBSTONE⟩ :: ⟨5,50⟩ :: ⟨99,TOMBSTONE⟩
            :: List.replicate 5 ⟨0,0⟩⟩ : MapState).len
        = (⟨[⟨5,50⟩],1,8,
            ⟨5,50⟩ :: List.replicate 7 ⟨0,0⟩⟩ : MapState).len
          + ([5,99] : List Nat).dedup.length ∧
      ∀ k ∈ ([5,99] : List Nat),
        get ⟨[⟨5,TOMBSTONE⟩,⟨5,50⟩,⟨99,TOMBSTONE⟩],3,8,
          ⟨5,TOMBSTONE⟩ :: ⟨5,50⟩ :: ⟨99,TOMBSTONE⟩
            :: List.replicate 5 ⟨0,0⟩⟩ k = none) := by
  refine ⟨by decide, by decide, by decide, by decide, ?_⟩
  exact c7_delete_merges_tombstones (by decide) (by decide) (by decide)
    (by decide)

/-- C8 is false on the code: neither `RANGE_WGSL` nor the host filters
tombstone-valued entries; the raw slab segment is returned.  On the sorted
slab `[(1,5),(2,TOMBSTONE)]` the scan over `[1,3)` returns the tombstone
entry as well. -/
theorem c8_counterexample :
    SortedLe [⟨1,5⟩,⟨2,TOMBSTONE⟩] ∧
    rangeScan [⟨1,5⟩,⟨2,TOMBSTONE⟩] 1 3 = [⟨1,5⟩,⟨2,TOMBSTONE⟩] ∧
    (⟨2,TOMBSTONE⟩ : KvEntry) ∈ rangeScan [⟨1,5⟩,⟨2,TOMBSTONE⟩] 1 3 ∧
    (⟨2,TOMBSTONE⟩ : KvEntry).value = TOMBSTONE := by
  exact ⟨by decide, by decide, by decide, rfl⟩

/-- Witness for the amended C8 on a three-entry slab containing a
tombstone inside the scanned interval. -/
theorem c8_witness :
    SortedLe [⟨1,5⟩,⟨2,TOMBSTONE⟩,⟨7,4⟩] ∧
    rangeScan [⟨1,5⟩,⟨2,TOMBSTONE⟩,⟨7,4⟩] 2 8
      = List.filter (fun e => decide (2 ≤ e.key) && decide (e.key < 8))
          [⟨1,5⟩,⟨2,TOMBSTONE⟩,⟨7,4⟩] := by
  refine ⟨by decide, ?_⟩
  exact c8_range_segment (by decide) 2 8

end GpuSortedMap
